import Mathlib

set_option maxRecDepth 100000
set_option exponentiation.threshold 4096

/-!
Verification of the numeric core of `src/main.py` (radix conversion, binary
arithmetic, IEEE-754 encoding, ASCII tables).

The Python endpoints are embedded shallowly:

* Python's builtin `int(s, base)` is modelled by `pyIntParse` (ASCII digits,
  optional surrounding ASCII whitespace, optional sign, optional `0x`/`0o`/`0b`
  prefix, single underscores between digits, bases 0 and 2..36; Python's
  acceptance of non-ASCII Unicode decimal digits is out of scope).
* `bin`/`oct`/`hex`/`str` on integers are modelled by `pyBinL`/`pyOctL`/
  `pyHexL`/`pyStrIntL`; Python string slicing `[2:]` is `slice2` (Python
  slices by code point, as does `List.drop` on `String.data`).
* `HTTPException(status_code=400, ...)` responses are `Api.err400`; an
  uncaught exception (server error) is `Api.crash`.
* IEEE-754 binary64 floats are modelled exactly as dyadic rationals `Dy`
  (an integer mantissa times a power of two), with round-to-nearest,
  ties-to-even rounding `flDy` at 53 significant bits; `struct.pack('!f', x)`
  is modelled by the binary32 encoder `binary32Word`/`packF`.

All computational definitions use only `Nat`/`Int` arithmetic so that concrete
runs reduce inside the kernel; `ℚ`-valued semantics (`Dy.val`) appear only in
statements and proofs.
-/

/-- Value of an ASCII digit character exactly as CPython's `int(s, base)`
digit table assigns it: `0`-`9`, then `a`-`z` and `A`-`Z` as 10..35. -/
def digitVal (c : Char) : Option Nat :=
  if 48 ≤ c.toNat ∧ c.toNat ≤ 57 then some (c.toNat - 48)
  else if 97 ≤ c.toNat ∧ c.toNat ≤ 122 then some (c.toNat - 87)
  else if 65 ≤ c.toNat ∧ c.toNat ≤ 90 then some (c.toNat - 55)
  else none

/-- Is every character of `l` a digit whose value is below `fb`?  (The
hypothesis of the amended digit-validity characterization, in decidable
form.) -/
def allValidDigits (fb : Int) (l : List Char) : Bool :=
  l.all fun c =>
    match digitVal c with
    | some d => decide ((d : Int) < fb)
    | none => false

/-- Digit character as emitted by Python's `bin`/`oct`/`hex`/`str`
(lowercase letters for values 10..15). -/
def digitChar (d : Nat) : Char :=
  if d < 10 then Char.ofNat (48 + d) else Char.ofNat (87 + d)

/-- Fuel-driven most-significant-first digit expansion of a natural number in
base `b` (empty list for 0); fuel `n` itself always suffices. -/
def natDigitsF (b : Nat) : Nat → Nat → List Char
  | 0, _ => []
  | f + 1, n => if n = 0 then [] else natDigitsF b f (n / b) ++ [digitChar (n % b)]

/-- Digits of `n` in base `b`, most significant first; `[]` for `n = 0`. -/
def natDigitsL (b n : Nat) : List Char := natDigitsF b n n

/-- Digits of `n` in base `b` with `0` rendered as `"0"`, exactly the digit
part of Python's `bin`/`oct`/`hex`/`str` output. -/
def natDigitsZ (b n : Nat) : List Char := if n = 0 then ['0'] else natDigitsL b n

/-- ASCII whitespace stripped by CPython around an integer literal. -/
def isPyWs (c : Char) : Bool :=
  c.toNat == 32 || c.toNat == 9 || c.toNat == 10 || c.toNat == 13 ||
    c.toNat == 11 || c.toNat == 12

/-- Strip leading and trailing whitespace (Python `int` tolerates both). -/
def stripWs (l : List Char) : List Char :=
  ((l.dropWhile fun c => isPyWs c).reverse.dropWhile fun c => isPyWs c).reverse

/-- Digit-sequence scanner of CPython's `int(s, base)`: after a first digit,
single underscores may separate further digits; accumulates the value. -/
def digitsLoop (b : Nat) : Nat → List Char → Option Nat
  | acc, [] => some acc
  | acc, c :: rest =>
    if c = '_' then
      match rest with
      | [] => none
      | c2 :: rest2 =>
        match digitVal c2 with
        | some d => if d < b then digitsLoop b (acc * b + d) rest2 else none
        | none => none
    else
      match digitVal c with
      | some d => if d < b then digitsLoop b (acc * b + d) rest else none
      | none => none

/-- Parse a nonempty digit group: the first character must be a digit valid in
base `b` (no leading underscore), then `digitsLoop` rules apply. -/
def parseDigitsCore (b : Nat) : List Char → Option Nat
  | [] => none
  | c :: rest => if c = '_' then none else digitsLoop b 0 (c :: rest)

/-- Drop one optional underscore (allowed directly after a base prefix). -/
def dropOneU : List Char → List Char
  | '_' :: r => r
  | l => l

/-- Strip the optional matching base prefix `0x`/`0o`/`0b` (either case), plus
one optional underscore after it, as CPython does for bases 16, 8 and 2. -/
def dropPfx (b : Nat) (l : List Char) : List Char :=
  match l with
  | c0 :: p :: rest =>
    if c0 = '0' ∧ ((b = 16 ∧ (p = 'x' ∨ p = 'X')) ∨ (b = 8 ∧ (p = 'o' ∨ p = 'O')) ∨
        (b = 2 ∧ (p = 'b' ∨ p = 'B'))) then dropOneU rest
    else l
  | _ => l

/-- CPython base-0 literal rules: a `0x`/`0o`/`0b` prefix selects the base; a
bare leading `0` may only be followed by zeros (and underscores); otherwise
the literal is decimal. -/
def parseBase0 (l : List Char) : Option Nat :=
  match l with
  | '0' :: p :: rest =>
    if p = 'x' ∨ p = 'X' then parseDigitsCore 16 (dropOneU rest)
    else if p = 'o' ∨ p = 'O' then parseDigitsCore 8 (dropOneU rest)
    else if p = 'b' ∨ p = 'B' then parseDigitsCore 2 (dropOneU rest)
    else parseDigitsCore 1 ('0' :: p :: rest)
  | _ => parseDigitsCore 10 l

/-- Split an optional leading sign, returning the sign as `1` or `-1`. -/
def splitSign (l : List Char) : Int × List Char :=
  match l with
  | [] => (1, [])
  | c :: rest =>
    if c = '+' then (1, rest) else if c = '-' then (-1, rest) else (1, c :: rest)

/-- Model of Python's builtin `int(s, base)` (the repository's only digit
parser, used by `convert_integer` and `convert_fraction`): `none` models a
`ValueError`.  The base must be 0 or 2..36, otherwise `ValueError`. -/
def pyIntParse (s : String) (base : Int) : Option Int :=
  let sg := splitSign (stripWs s.data)
  let mag : Option Nat :=
    if base = 0 then parseBase0 sg.2
    else if 2 ≤ base ∧ base ≤ 36 then parseDigitsCore base.toNat (dropPfx base.toNat sg.2)
    else none
  mag.map fun n => sg.1 * n

/-- Python string slicing `[2:]` (by code point). -/
def slice2 (l : List Char) : List Char := l.drop 2

/-- Python `bin(n)`: `0b` prefix, `-` sign in front for negative input. -/
def pyBinL (n : Int) : List Char :=
  (if n < 0 then ['-'] else []) ++ '0' :: 'b' :: natDigitsZ 2 n.natAbs

/-- Python `oct(n)`. -/
def pyOctL (n : Int) : List Char :=
  (if n < 0 then ['-'] else []) ++ '0' :: 'o' :: natDigitsZ 8 n.natAbs

/-- Python `hex(n)` (lowercase digits). -/
def pyHexL (n : Int) : List Char :=
  (if n < 0 then ['-'] else []) ++ '0' :: 'x' :: natDigitsZ 16 n.natAbs

/-- Python `str(n)` on an integer. -/
def pyStrIntL (n : Int) : List Char :=
  (if n < 0 then ['-'] else []) ++ natDigitsZ 10 n.natAbs

/-- Python `str.upper()` restricted to ASCII, which is all the conversion
code ever upcases (hexadecimal digit strings). -/
def mapUpper (l : List Char) : List Char := l.map Char.toUpper

/-- Python `str.zfill(w)` on an unsigned digit string: left-pad with zeros. -/
def zfill (w : Nat) (l : List Char) : List Char := List.replicate (w - l.length) '0' ++ l

/-- Canonical digit string of a natural number in base `b` as the spec
describes rendered output: no leading zeros, uppercase letters. -/
def canonicalDigits (b n : Nat) : String := String.mk (mapUpper (natDigitsZ b n))

/-- The facts needed of a character transform `f` (identity or upcasing)
applied to rendered digits so that the rendered string parses back. -/
def GoodDigitMap (b : Nat) (f : Char → Char) : Prop :=
  ∀ d, d < b →
    digitVal (f (digitChar d)) = some d ∧ f (digitChar d) ≠ '_' ∧
    isPyWs (f (digitChar d)) = false ∧ f (digitChar d) ≠ '+' ∧ f (digitChar d) ≠ '-' ∧
    (d ≠ 0 → f (digitChar d) ≠ '0')

/-- Outcome of one endpoint call: a 200 payload, an
`HTTPException(status_code=400, detail=...)`, or an uncaught exception. -/
inductive Api (α : Type) where
  | ok : α → Api α
  | err400 : String → Api α
  | crash : Api α
deriving DecidableEq

/-- Is the call rejected (either kind of failure)? -/
def Api.isOk {α : Type} : Api α → Bool
  | .ok _ => true
  | _ => false

/-- Response payload of `POST /api/convert_integer`. -/
structure ConvertIntResult where
  input : String
  from_base : Int
  to_base : Int
  result : String
  decimal_value : Int
deriving DecidableEq

/-- The `convert_integer` endpoint of `src/main.py`: parse with
`int(number, from_base)`, then render with `str`/`bin`/`oct`/`hex` slicing
off the first two characters; unknown `to_base` and `ValueError` both map to
HTTP 400. -/
def convert_integer (number : String) (from_base to_base : Int) : Api ConvertIntResult :=
  match pyIntParse number from_base with
  | none => .err400 "Некоректне число для заданої системи числення"
  | some dv =>
    if to_base = 10 then .ok ⟨number, from_base, to_base, String.mk (pyStrIntL dv), dv⟩
    else if to_base = 2 then .ok ⟨number, from_base, to_base, String.mk (slice2 (pyBinL dv)), dv⟩
    else if to_base = 8 then .ok ⟨number, from_base, to_base, String.mk (slice2 (pyOctL dv)), dv⟩
    else if to_base = 16 then
      .ok ⟨number, from_base, to_base, String.mk (mapUpper (slice2 (pyHexL dv))), dv⟩
    else .err400 "Підтримуються тільки бази 2, 8, 10, 16"

/-- Response payload of `POST /api/binary_arithmetic`. -/
structure ArithResult where
  result_bin : String
  result_dec : Int
deriving DecidableEq

/-- The binary rendering of `binary_arithmetic`:
`bin(res)[2:] if res >= 0 else "-" + bin(abs(res))[2:]`. -/
def resBinL (res : Int) : List Char :=
  if 0 ≤ res then slice2 (pyBinL res) else '-' :: slice2 (pyBinL (res.natAbs : Int))

/-- The `binary_arithmetic` endpoint of `src/main.py`: exact (arbitrary
precision) integer add/sub/mul, result rendered in decimal and in
sign-magnitude binary. -/
def binary_arithmetic (a b : Int) (operation : String) : Api ArithResult :=
  if operation = "add" then .ok ⟨String.mk (resBinL (a + b)), a + b⟩
  else if operation = "sub" then .ok ⟨String.mk (resBinL (a - b)), a - b⟩
  else if operation = "mul" then .ok ⟨String.mk (resBinL (a * b)), a * b⟩
  else .err400 "Операція повинна бути add, sub або mul"

/-- One row of the `POST /api/ascii` response table. -/
structure AsciiRecord where
  char : Char
  dec : Nat
  hex : String
  bin : String
deriving DecidableEq

/-- The `ascii_encoder` endpoint of `src/main.py`: for each character of the
text, its code point (`ord`), `hex(code)[2:].upper()` and
`bin(code)[2:].zfill(8)`. -/
def ascii_encoder (text : String) : List AsciiRecord :=
  text.data.map fun c =>
    ⟨c, c.toNat, String.mk (mapUpper (slice2 (pyHexL (c.toNat : Int)))),
      String.mk (zfill 8 (slice2 (pyBinL (c.toNat : Int))))⟩

/-- Fuel-driven floor-log2 on naturals (`nlog2F n n` computes `⌊log2 n⌋`
for `n ≥ 1`); structural in the fuel so that the kernel can evaluate it. -/
def nlog2F : Nat → Nat → Nat
  | 0, _ => 0
  | f + 1, n => if 2 ≤ n then nlog2F f (n / 2) + 1 else 0

/-- `⌊log2 n⌋` for `n ≥ 1` (and 0 at 0). -/
def nlog2 (n : Nat) : Nat := nlog2F n n

/-- Fuel-driven ceiling-log2 search: smallest `j` with `D ≤ 2 ^ j`. -/
def clog2F (D : Nat) : Nat → Nat → Nat
  | 0, j => j
  | f + 1, j => if D ≤ 2 ^ j then j else clog2F D f (j + 1)

/-- Smallest `j` with `D ≤ 2 ^ j` (for `D ≥ 1`). -/
def clog2 (D : Nat) : Nat := clog2F D D 0

/-- A dyadic rational `m * 2 ^ e`: the exact value of an IEEE-754 binary64
float.  Values are not kept normalized; `Dy.val` is the semantics. -/
structure Dy where
  m : Int
  e : Int
deriving DecidableEq

/-- The exact rational value of a dyadic. -/
def Dy.val (x : Dy) : ℚ := (x.m : ℚ) * (2 : ℚ) ^ x.e

/-- Round to the nearest integer, ties to even, on exact rationals: the
specification-side counterpart of the computable `roundHEDiv`/`roundHEQuot`
below (used only in statements and proofs). -/
def rndHE (y : ℚ) : ℤ :=
  if y - ⌊y⌋ < 1 / 2 then ⌊y⌋
  else if 1 / 2 < y - ⌊y⌋ then ⌊y⌋ + 1
  else if ⌊y⌋ % 2 = 0 then ⌊y⌋ else ⌊y⌋ + 1

/-- The loop invariant of the fractional-digit loop: the accumulator is an
exactly representable binary64 value in `[0, 1)` - a natural mantissa below
`2 ^ 53` scaled by `2 ^ s` with `-1074 ≤ s ≤ 0`. -/
def DoubleIn01 (q : ℚ) : Prop :=
  ∃ (k : Nat) (s : Int),
    -1074 ≤ s ∧ s ≤ 0 ∧ k < 2 ^ 53 ∧ q = (k : ℚ) * (2 : ℚ) ^ s ∧ q < 1

/-- Exact sum of two dyadics (align exponents, add mantissas). -/
def dyAdd (x y : Dy) : Dy :=
  if x.e ≤ y.e then ⟨x.m + y.m * 2 ^ (y.e - x.e).toNat, x.e⟩
  else ⟨x.m * 2 ^ (x.e - y.e).toNat + y.m, y.e⟩

/-- Exact negation. -/
def dyNeg (x : Dy) : Dy := ⟨-x.m, x.e⟩

/-- Exact difference. -/
def dySub (x y : Dy) : Dy := dyAdd x (dyNeg y)

/-- Exact product. -/
def dyMul (x y : Dy) : Dy := ⟨x.m * y.m, x.e + y.e⟩

/-- Round `n / D` (naturals, `D ≠ 0`) to the nearest integer, ties to even. -/
def roundHEDiv (n D : Nat) : Nat :=
  let q := n / D
  let r := n % D
  if 2 * r < D then q
  else if D < 2 * r then q + 1
  else if q % 2 = 0 then q else q + 1

/-- Round `m / 2 ^ d` to the nearest integer, ties to even (signed;
round-half-even is symmetric under negation). -/
def roundHEQuot (m : Int) (d : Nat) : Int :=
  if m < 0 then -(roundHEDiv m.natAbs (2 ^ d) : Int) else (roundHEDiv m.natAbs (2 ^ d) : Int)

/-- `roundHE (x.val / 2 ^ s)` as an integer (exact scaling when `s ≤ x.e`). -/
def roundAt (x : Dy) (s : Int) : Int :=
  if s ≤ x.e then x.m * 2 ^ (x.e - s).toNat
  else roundHEQuot x.m (s - x.e).toNat

/-- Round a dyadic to IEEE-754 binary64: 53 significant bits, minimum
exponent -1074 (subnormals included).  The exponent is unbounded at the top:
`flDy` returns the round-to-nearest value with unlimited range, and the one
place where CPython instead raises `OverflowError` - the int → float
conversion of a huge integer - is modelled separately by `pyFloatOverflows`
and the corresponding crash branches of `convert_fraction` below. -/
def flDy (x : Dy) : Dy :=
  if x.m = 0 then ⟨0, 0⟩
  else
    let L : Int := (nlog2 x.m.natAbs : Int) + x.e
    let s : Int := max (L - 52) (-1074)
    ⟨roundAt x s, s⟩

/-- Python float addition (exact sum, then one binary64 rounding). -/
def pyAdd (x y : Dy) : Dy := flDy (dyAdd x y)

/-- Python float subtraction. -/
def pySub (x y : Dy) : Dy := flDy (dySub x y)

/-- Python float multiplication. -/
def pyMul (x y : Dy) : Dy := flDy (dyMul x y)

/-- Python int → float conversion (rounds when the integer needs more than
53 bits).  `pyFloat` is the rounded value with unbounded exponent; CPython
additionally raises `OverflowError` when that value falls outside the
binary64 range, which `pyFloatOverflows` below decides. -/
def pyFloat (n : Int) : Dy := flDy ⟨n, 0⟩

/-- CPython's int → float conversion (`PyLong_AsDouble`, reached by
`dec_int + dec_frac` and by `current_frac *= to_base`) raises
`OverflowError` ("int too large to convert to float") exactly when the
round-to-nearest binary64 value of the integer reaches `2 ^ 1024` in
magnitude; this decides that condition on the unbounded-range rounding
`pyFloat`. -/
def pyFloatOverflows (n : Int) : Bool :=
  let x := pyFloat n
  if 0 ≤ x.e then decide (2 ^ 1024 ≤ x.m.natAbs * 2 ^ x.e.toNat)
  else decide (2 ^ 1024 * 2 ^ (-x.e).toNat ≤ x.m.natAbs)

/-- Python `int()` applied to a float: truncation toward zero. -/
def dyTrunc (x : Dy) : Int :=
  if 0 ≤ x.e then x.m * 2 ^ x.e.toNat
  else
    let d := (-x.e).toNat
    if x.m < 0 then -((x.m.natAbs / 2 ^ d : Nat) : Int) else ((x.m.natAbs / 2 ^ d : Nat) : Int)

/-- CPython `b ** -k` for an int `b ≥ 1` and positive `k` delegates to the C
library float `pow`; modelled as the correctly rounded binary64 value of the
exact rational `1 / b ^ k` (which is what every libm returns on the small
inputs arising here). -/
def flInvPow (b k : Nat) : Dy :=
  let D := b ^ k
  let s : Int := max (-(clog2 D : Int) - 52) (-1074)
  ⟨(roundHEDiv (2 ^ (-s).toNat) D : Int), s⟩

/-- Python `str.replace(',', '.')`. -/
def pyReplaceCommas (l : List Char) : List Char := l.map fun c => if c = ',' then '.' else c

/-- Python `str.split('.')`. -/
def splitDots : List Char → List (List Char)
  | [] => [[]]
  | c :: rest =>
    match splitDots rest with
    | [] => [[]]
    | g :: gs => if c = '.' then [] :: g :: gs else (c :: g) :: gs

/-- `parts[0]` and `parts[1]`: any further parts are silently ignored by the
code. -/
def firstTwoParts : List (List Char) → List Char × List Char
  | ip :: fp :: _ => (ip, fp)
  | [ip] => (ip, [])
  | [] => ([], [])

/-- Parse every fractional character with `int(digit, from_base)`. -/
def fracVals (fb : Int) : List Char → Option (List Int)
  | [] => some []
  | c :: rest =>
    match pyIntParse (String.mk [c]) fb with
    | none => none
    | some v => (fracVals fb rest).map fun vs => v :: vs

/-- Does `int(first_char, fb)` succeed?  With `from_base = 0` the Python loop
raises `ZeroDivisionError` in `0 ** -(i+1)` right after the first successful
character parse, before later characters are even looked at. -/
def firstFracParses (fb : Int) : List Char → Bool
  | [] => false
  | c :: _ => (pyIntParse (String.mk [c]) fb).isSome

/-- The `dec_frac` accumulation loop:
`dec_frac += val * (from_base ** -(i + 1))` in binary64 arithmetic. -/
def accumFrac (fb : Nat) : List Int → Nat → Dy → Dy
  | [], _, acc => acc
  | v :: rest, i, acc =>
    accumFrac fb rest (i + 1) (pyAdd acc (pyMul (pyFloat v) (flInvPow fb (i + 1))))

/-- One iteration of the fractional digit loop of `convert_fraction`:
`current *= to_base` (int → float conversion, float multiply), the digit is
`int(current)`, then `current -= digit` (float subtract). -/
def fracStep (tb : Int) (cur : Dy) : Int × Dy :=
  let v := pyMul cur (pyFloat tb)
  let d := dyTrunc v
  (d, pySub v (pyFloat d))

/-- The characters appended for one fractional digit:
`chr(ord('A') + digit - 10)` for `digit >= 10`, else `str(digit)`. -/
def digitChars (d : Int) : List Char :=
  if 10 ≤ d then [Char.ofNat (65 + (d - 10).toNat)] else pyStrIntL d

/-- The fractional digit loop: at most `precision` iterations, stopping early
when the remainder becomes exactly zero (the digit characters are appended
before the zero test, as in the code). -/
def fracLoop (tb : Int) : Nat → Dy → List Char
  | 0, _ => []
  | p + 1, cur =>
    let s := fracStep tb cur
    if s.2.m = 0 then digitChars s.1
    else digitChars s.1 ++ fracLoop tb p s.2

/-- Modelled from the spec: the `toBase == 10` branch returns
`str(full_decimal)`, "the natural floating-point string form".  CPython's
shortest-round-trip float repr is runtime behaviour outside the repository
and no claim touches this branch; this placeholder renders the exact decimal
expansion of the dyadic value instead (they agree on exact short values such
as `0.875`). -/
def pyFloatRepr (x : Dy) : String :=
  if 0 ≤ x.e then String.mk (pyStrIntL (x.m * 2 ^ x.e.toNat) ++ ['.', '0'])
  else
    let d := (-x.e).toNat
    let n := x.m.natAbs
    let ip := n / 2 ^ d
    let fr := n % 2 ^ d
    let ds := ((zfill d (natDigitsZ 10 (fr * 5 ^ d))).reverse.dropWhile fun c => c == '0').reverse
    String.mk ((if x.m < 0 then ['-'] else []) ++ natDigitsZ 10 ip ++ '.' ::
      (if fr = 0 then ['0'] else ds))

/-- Comma normalization and default fractional part `"0"` of
`convert_fraction`. -/
def cfNormalize (number : String) : List Char :=
  let ns0 := pyReplaceCommas number.data
  if ns0.contains '.' then ns0 else ns0 ++ ['.', '0']

/-- `parts[0]` and `parts[1]` of the normalized number split on dots. -/
def cfParts (number : String) : List Char × List Char :=
  firstTwoParts (splitDots (cfNormalize number))

/-- The integer-part rendering chain of `convert_fraction` (shares the
negative-value slicing behaviour of `convert_integer`). -/
def cfRenderInt (to_base decInt : Int) : List Char :=
  if to_base = 2 then slice2 (pyBinL decInt)
  else if to_base = 8 then slice2 (pyOctL decInt)
  else if to_base = 16 then mapUpper (slice2 (pyHexL decInt))
  else pyStrIntL decInt

/-- The `convert_fraction` endpoint of `src/main.py`: normalize commas, add a
default fractional part `"0"`, split on dots (extra parts ignored), parse the
integer part and each fractional character in `from_base`, accumulate
`dec_frac` in binary64 floating point, then either return the decimal string
(`to_base = 10`) or render the integer part and emit up to `precision`
fractional digits.  Three uncaught crash paths (none is a `ValueError`, so
the `except` clause does not turn them into a 400): `from_base = 0` with a
nonempty fractional string raises `ZeroDivisionError` in
`from_base ** -(i + 1)`; `full_decimal = dec_int + dec_frac` raises
`OverflowError` when `float(dec_int)` overflows (it runs before the
`to_base` dispatch, so for every target base); and the first
`current_frac *= to_base` of the digit loop raises `OverflowError` when
`float(to_base)` overflows (only reachable with `to_base ≠ 10` and
`precision ≥ 1`). -/
def convert_fraction (number : String) (from_base to_base precision : Int) : Api String :=
  let parts := cfParts number
  match pyIntParse (String.mk parts.1) from_base with
  | none => .err400 "Некоректне дробове число"
  | some decInt =>
    match fracVals from_base parts.2 with
    | none =>
      if from_base = 0 ∧ firstFracParses from_base parts.2 then .crash
      else .err400 "Некоректне дробове число"
    | some vals =>
      if from_base = 0 ∧ vals ≠ [] then .crash
      else if pyFloatOverflows decInt then .crash
      else
        let decFrac := accumFrac from_base.toNat vals 0 ⟨0, 0⟩
        let fullDecimal := pyAdd (pyFloat decInt) decFrac
        if to_base = 10 then .ok (pyFloatRepr fullDecimal)
        else if 1 ≤ precision ∧ pyFloatOverflows to_base = true then .crash
        else
          .ok (String.mk (cfRenderInt to_base decInt ++ '.' ::
            fracLoop to_base precision.toNat decFrac))

/-- A lexically valid base-16 integer literal whose value `16 ^ 256 = 2 ^ 1024`
is beyond the binary64 range: `"1"` followed by 256 `"0"`s. -/
def hugeHexNumber : String := String.mk ('1' :: List.replicate 256 '0')

/-- Round a dyadic to IEEE-754 binary32 and build the 32-bit word: sign bit,
8 exponent bits (bias 127), 23 mantissa bits, with subnormals per the
standard.  This models what `struct.pack('!f', x)` does to the (exactly
represented) double `x`.  One divergence, recorded for fidelity: for a
finite double beyond the binary32 range `struct.pack('!f', x)` raises
`OverflowError`, while this encoder returns the infinity bit pattern; the
difference is unreachable for the values the development applies it to,
which lie far inside the binary32 range. -/
def binary32Word (x : Dy) : Nat :=
  if x.m = 0 then 0
  else
    let sign : Nat := if x.m < 0 then 1 else 0
    let n := x.m.natAbs
    let L : Int := (nlog2 n : Int) + x.e
    let s : Int := max (L - 23) (-149)
    let mr := (roundAt ⟨(n : Int), x.e⟩ s).toNat
    if mr = 0 then sign * 2 ^ 31
    else
      let L2 : Int := (nlog2 mr : Int) + s
      if 127 < L2 then sign * 2 ^ 31 + 255 * 2 ^ 23
      else if L2 < -126 then sign * 2 ^ 31 + mr
      else
        let mfield := mr * 2 ^ (s - (L2 - 23)).toNat / 2 ^ ((L2 - 23) - s).toNat
        sign * 2 ^ 31 + (L2 + 127).toNat * 2 ^ 23 + (mfield - 2 ^ 23)

/-- `struct.pack('!f', x)`: the four bytes of the binary32 word, big-endian. -/
def packF (x : Dy) : List Nat :=
  let w := binary32Word x
  [w / 2 ^ 24 % 256, w / 2 ^ 16 % 256, w / 2 ^ 8 % 256, w % 256]

/-- Response payload of `POST /api/ieee754`. -/
structure IEEEResult where
  binary : String
  hex : String
deriving DecidableEq

/-- The `float_to_ieee754` endpoint of `src/main.py`: pack as binary32
big-endian, render every byte as 8 binary digits (`f'{b:08b}'`), regroup the
32 characters as `[0]`, `[1:9]`, `[9:]` separated by spaces, and render the
bytes as an uppercase hex string (`packed.hex().upper()`). -/
def float_to_ieee754 (x : Dy) : IEEEResult :=
  let packed := packF x
  let binaryStr := (packed.map fun b => zfill 8 (natDigitsZ 2 b)).flatten
  let hexStr := mapUpper ((packed.map fun b => zfill 2 (natDigitsZ 16 b)).flatten)
  ⟨String.mk (binaryStr.take 1 ++ ' ' :: ((binaryStr.drop 1).take 8 ++ ' ' :: binaryStr.drop 9)),
    String.mk hexStr⟩

/-! ### Digit-string toolkit -/

theorem natDigitsF_fuel (b : Nat) (hb : 2 ≤ b) :
    ∀ f f' n, n ≤ f → n ≤ f' → natDigitsF b f n = natDigitsF b f' n := by
  intro f
  induction f with
  | zero =>
    intro f' n hf _
    have hn : n = 0 := by omega
    subst hn
    cases f' <;> simp [natDigitsF]
  | succ f ih =>
    intro f' n hf hf'
    by_cases hn : n = 0
    · subst hn
      cases f' <;> simp [natDigitsF]
    · cases f' with
      | zero => omega
      | succ f'' =>
        have hd : n / b < n := Nat.div_lt_self (by omega) (by omega)
        simp only [natDigitsF, if_neg hn]
        rw [ih f'' (n / b) (by omega) (by omega)]

theorem natDigitsL_zero (b : Nat) : natDigitsL b 0 = [] := rfl

theorem natDigitsL_eq (b : Nat) (hb : 2 ≤ b) (n : Nat) (hn : n ≠ 0) :
    natDigitsL b n = natDigitsL b (n / b) ++ [digitChar (n % b)] := by
  have hd : n / b < n := Nat.div_lt_self (by omega) (by omega)
  obtain ⟨m, rfl⟩ : ∃ m, n = m + 1 := ⟨n - 1, by omega⟩
  show natDigitsF b (m + 1) (m + 1) = _
  simp only [natDigitsF, if_neg hn]
  exact congrArg (fun l => l ++ [digitChar ((m + 1) % b)])
    (natDigitsF_fuel b hb m ((m + 1) / b) ((m + 1) / b) (by omega) le_rfl)

theorem natDigitsL_mem (b : Nat) (hb : 2 ≤ b) :
    ∀ n, ∀ c ∈ natDigitsL b n, ∃ d, d < b ∧ c = digitChar d := by
  intro n
  induction n using Nat.strong_induction_on with
  | _ n ih =>
    by_cases hn : n = 0
    · subst hn
      intro c hc
      simp [natDigitsL_zero] at hc
    · intro c hc
      rw [natDigitsL_eq b hb n hn] at hc
      rcases List.mem_append.mp hc with h | h
      · exact ih (n / b) (Nat.div_lt_self (by omega) (by omega)) c h
      · refine ⟨n % b, Nat.mod_lt n (by omega), ?_⟩
        simpa using h

theorem natDigitsZ_mem (b : Nat) (hb : 2 ≤ b) (n : Nat) :
    ∀ c ∈ natDigitsZ b n, ∃ d, d < b ∧ c = digitChar d := by
  intro c hc
  unfold natDigitsZ at hc
  by_cases hn : n = 0
  · rw [if_pos hn] at hc
    refine ⟨0, by omega, ?_⟩
    have : c = '0' := by simpa using hc
    rw [this]
    decide
  · rw [if_neg hn] at hc
    exact natDigitsL_mem b hb n c hc

theorem natDigitsL_cons (b : Nat) (hb : 2 ≤ b) :
    ∀ n, n ≠ 0 → ∃ d t, d ≠ 0 ∧ d < b ∧ natDigitsL b n = digitChar d :: t := by
  intro n
  induction n using Nat.strong_induction_on with
  | _ n ih =>
    intro hn
    rw [natDigitsL_eq b hb n hn]
    by_cases hq : n / b = 0
    · have hmod : n % b < b := Nat.mod_lt n (by omega)
      have hnb : n < b := by
        have h1 := Nat.div_add_mod n b
        rw [hq, Nat.mul_zero, Nat.zero_add] at h1
        omega
      refine ⟨n % b, [], ?_, hmod, ?_⟩
      · rw [Nat.mod_eq_of_lt hnb]; exact hn
      · rw [hq, natDigitsL_zero]; rfl
    · obtain ⟨d, t, hd0, hdb, hcons⟩ := ih (n / b) (Nat.div_lt_self (by omega) (by omega)) hq
      exact ⟨d, t ++ [digitChar (n % b)], hd0, hdb, by rw [hcons]; rfl⟩

theorem natDigitsL_length_bounds (b : Nat) (hb : 2 ≤ b) :
    ∀ n, n ≠ 0 →
      b ^ ((natDigitsL b n).length - 1) ≤ n ∧ n < b ^ (natDigitsL b n).length := by
  intro n
  induction n using Nat.strong_induction_on with
  | _ n ih =>
    intro hn
    rw [natDigitsL_eq b hb n hn]
    by_cases hq : n / b = 0
    · have hnb : n < b := by
        have h1 := Nat.div_add_mod n b
        rw [hq, Nat.mul_zero, Nat.zero_add] at h1
        have h2 : n % b < b := Nat.mod_lt n (by omega)
        omega
      rw [hq, natDigitsL_zero]
      simpa using ⟨by omega, hnb⟩
    · obtain ⟨h1, h2⟩ := ih (n / b) (Nat.div_lt_self (by omega) (by omega)) hq
      have hlen : 1 ≤ (natDigitsL b (n / b)).length := by
        rcases natDigitsL_cons b hb (n / b) hq with ⟨d, t, _, _, hcons⟩
        rw [hcons]; simp
      set k := (natDigitsL b (n / b)).length with hk
      constructor
      · have : b ^ k ≤ n := by
          calc b ^ k = b ^ (k - 1) * b := by
                rw [← pow_succ]
                congr 1
                omega
            _ ≤ (n / b) * b := Nat.mul_le_mul_right b h1
            _ ≤ n := Nat.div_mul_le_self n b
        simpa using this
      · have h3 : n / b + 1 ≤ b ^ k := h2
        have h4 : n < b * (n / b) + b := by
          have := Nat.div_add_mod n b
          have h5 : n % b < b := Nat.mod_lt n (by omega)
          omega
        have : n < b ^ (k + 1) := by
          calc n < b * (n / b) + b := h4
            _ = (n / b + 1) * b := by ring
            _ ≤ b ^ k * b := Nat.mul_le_mul_right b h3
            _ = b ^ (k + 1) := (pow_succ b k).symm
        simpa using this

/-! ### Parsing rendered digit strings -/

theorem goodDigitMap_toUpper : GoodDigitMap 16 Char.toUpper := by
  unfold GoodDigitMap
  decide

theorem digitsLoop_nil (b acc : Nat) : digitsLoop b acc [] = some acc := rfl

theorem digitsLoop_cons_valid (b acc : Nat) (c : Char) (l2 : List Char) (d : Nat)
    (hne : c ≠ '_') (hdv : digitVal c = some d) (hdb : d < b) :
    digitsLoop b acc (c :: l2) = digitsLoop b (acc * b + d) l2 := by
  rw [digitsLoop.eq_def]
  simp only [if_neg hne, hdv, if_pos hdb]

theorem parseDigitsCore_cons (b : Nat) (c : Char) (rest : List Char) (hne : c ≠ '_') :
    parseDigitsCore b (c :: rest) = digitsLoop b 0 (c :: rest) := by
  rw [parseDigitsCore.eq_def]
  simp only [if_neg hne]

theorem goodDigitMap_mono {b b' : Nat} {f : Char → Char} (h : b' ≤ b)
    (hg : GoodDigitMap b f) : GoodDigitMap b' f :=
  fun d hd => hg d (lt_of_lt_of_le hd h)

theorem digitsLoop_digits (b : Nat) (hb : 2 ≤ b) (f : Char → Char)
    (hf : GoodDigitMap b f) :
    ∀ n acc l2,
      digitsLoop b acc ((natDigitsL b n).map f ++ l2) =
        digitsLoop b (acc * b ^ (natDigitsL b n).length + n) l2 := by
  intro n
  induction n using Nat.strong_induction_on with
  | _ n ih =>
    intro acc l2
    by_cases hn : n = 0
    · subst hn
      simp [natDigitsL_zero]
    · rw [natDigitsL_eq b hb n hn]
      have hrb : n % b < b := Nat.mod_lt n (by omega)
      obtain ⟨hdv, hne, -⟩ := hf (n % b) hrb
      rw [List.map_append, List.append_assoc]
      have hsingle : ([digitChar (n % b)].map f) ++ l2 = f (digitChar (n % b)) :: l2 := rfl
      rw [hsingle]
      rw [ih (n / b) (Nat.div_lt_self (by omega) (by omega)) acc (f (digitChar (n % b)) :: l2)]
      rw [digitsLoop_cons_valid b _ _ l2 (n % b) hne hdv hrb]
      have harith :
          (acc * b ^ (natDigitsL b (n / b)).length + n / b) * b + n % b =
            acc * b ^ ((natDigitsL b (n / b)).length + 1) + n := by
        have hdm := Nat.div_add_mod n b
        calc (acc * b ^ (natDigitsL b (n / b)).length + n / b) * b + n % b
            = acc * (b ^ (natDigitsL b (n / b)).length * b) + (b * (n / b) + n % b) := by ring
          _ = acc * b ^ ((natDigitsL b (n / b)).length + 1) + n := by
              rw [← pow_succ, hdm]
      rw [harith]
      congr 1
      simp

theorem parseDigitsCore_digits (b : Nat) (hb : 2 ≤ b) (f : Char → Char)
    (hf : GoodDigitMap b f) (n : Nat) :
    parseDigitsCore b ((natDigitsZ b n).map f) = some n := by
  by_cases hn : n = 0
  · subst hn
    obtain ⟨hdv, hne, -⟩ := hf 0 (by omega)
    have h0 : natDigitsZ b 0 = [digitChar 0] := by
      unfold natDigitsZ
      rw [if_pos rfl]
      decide
    rw [h0]
    show parseDigitsCore b [f (digitChar 0)] = some 0
    rw [parseDigitsCore_cons b _ _ hne]
    rw [digitsLoop_cons_valid b 0 _ [] 0 hne hdv (by omega)]
    rw [digitsLoop_nil]
    simp
  · obtain ⟨d, t, hd0, hdb, hcons⟩ := natDigitsL_cons b hb n hn
    obtain ⟨hdv, hne, -⟩ := hf d hdb
    have hz : natDigitsZ b n = natDigitsL b n := by unfold natDigitsZ; rw [if_neg hn]
    rw [hz]
    have hmap : (natDigitsL b n).map f = f (digitChar d) :: t.map f := by rw [hcons]; rfl
    rw [hmap]
    rw [parseDigitsCore_cons b _ _ hne]
    rw [← hmap]
    have hch := digitsLoop_digits b hb f hf n 0 []
    rw [List.append_nil] at hch
    rw [hch]
    rw [digitsLoop_nil]
    simp

/-!
Cross-checks of the binary64 model: each equality below reproduces the
observed output of the Python implementation (CPython doubles) on the same
input, including rounding-sensitive fraction traces and the negative-input
slicing quirk.
-/

example : convert_fraction "10.5" 10 2 4 = .ok "1010.1" := by decide
example : convert_fraction "0.1" 10 2 20 = .ok "0.00011001100110011001" := by decide
example : convert_fraction "3.3" 10 16 8 = .ok "3.4CCCCCCC" := by decide
example : convert_fraction "A.4" 16 2 6 = .ok "1010.01" := by decide
example : convert_fraction "7.77" 8 2 12 = .ok "111.111111" := by decide
example : convert_fraction "10,5" 10 2 4 = .ok "1010.1" := by decide
example : convert_fraction "-5.5" 10 2 4 = .ok "b101.1" := by decide
example : convert_fraction "0.1" 10 2 0 = .ok "0." := by decide
example : convert_fraction "1.2.9" 10 2 4 = .ok "1.0011" := by decide
example : convert_fraction "0.7" 8 10 5 = .ok "0.875" := by decide
example : convert_fraction "G.0" 16 2 4 = .err400 "Некоректне дробове число" := by decide
example : convert_fraction "0.0" 0 2 4 = .crash := by decide
example :
    float_to_ieee754 ⟨1, 0⟩ =
      ⟨"0 01111111 00000000000000000000000", "3F800000"⟩ := by decide

/-! ### Character classification -/

theorem digitVal_cases {c : Char} {d : Nat} (h : digitVal c = some d) :
    (48 ≤ c.toNat ∧ c.toNat ≤ 57 ∧ d = c.toNat - 48) ∨
    (97 ≤ c.toNat ∧ c.toNat ≤ 122 ∧ d = c.toNat - 87) ∨
    (65 ≤ c.toNat ∧ c.toNat ≤ 90 ∧ d = c.toNat - 55) := by
  unfold digitVal at h
  split_ifs at h with h1 h2 h3
  · exact Or.inl ⟨h1.1, h1.2, (Option.some.inj h).symm⟩
  · exact Or.inr (Or.inl ⟨h2.1, h2.2, (Option.some.inj h).symm⟩)
  · exact Or.inr (Or.inr ⟨h3.1, h3.2, (Option.some.inj h).symm⟩)

theorem ws_false_of_digitVal {c : Char} {d : Nat} (h : digitVal c = some d) :
    isPyWs c = false := by
  have h' := digitVal_cases h
  simp only [isPyWs, Bool.or_eq_false_iff, beq_eq_false_iff_ne, ne_eq]
  omega

theorem not_special_of_digitVal {c : Char} {d : Nat} (h : digitVal c = some d) :
    c ≠ '+' ∧ c ≠ '-' ∧ c ≠ '_' := by
  have h' := digitVal_cases h
  have c1 : ('+' : Char).toNat = 43 := rfl
  have c2 : ('-' : Char).toNat = 45 := rfl
  have c3 : ('_' : Char).toNat = 95 := rfl
  refine ⟨?_, ?_, ?_⟩ <;> intro he <;> subst he <;> omega

/-! ### Whitespace, sign and prefix handling on digit strings -/

theorem dropWhileWs_eq_self (l : List Char) (h : ∀ c ∈ l, isPyWs c = false) :
    l.dropWhile (fun c => isPyWs c) = l := by
  cases l with
  | nil => rfl
  | cons c t =>
    rw [List.dropWhile_cons]
    simp [h c (List.mem_cons_self c t)]

theorem stripWs_eq_self (l : List Char) (h : ∀ c ∈ l, isPyWs c = false) :
    stripWs l = l := by
  unfold stripWs
  rw [dropWhileWs_eq_self l h]
  rw [dropWhileWs_eq_self l.reverse fun c hc => h c (List.mem_reverse.mp hc)]
  exact List.reverse_reverse l

theorem splitSign_no_sign (c : Char) (t : List Char) (hp : c ≠ '+') (hm : c ≠ '-') :
    splitSign (c :: t) = (1, c :: t) := by
  rw [splitSign.eq_def]
  simp [hp, hm]

theorem dropPfx_eq_self (b : Nat) (c0 p : Char) (rest : List Char)
    (h : ¬(c0 = '0' ∧ ((b = 16 ∧ (p = 'x' ∨ p = 'X')) ∨ (b = 8 ∧ (p = 'o' ∨ p = 'O')) ∨
      (b = 2 ∧ (p = 'b' ∨ p = 'B'))))) :
    dropPfx b (c0 :: p :: rest) = c0 :: p :: rest := by
  rw [dropPfx.eq_def]
  exact if_neg h

theorem dropPfx_single (b : Nat) (c : Char) : dropPfx b [c] = [c] := rfl

/-! ### Parsing a canonically rendered digit string -/

theorem pyIntParse_canonical (b : Nat) (hb : 2 ≤ b) (hb36 : b ≤ 36) (f : Char → Char)
    (hg : GoodDigitMap b f) (n : Nat) :
    pyIntParse (String.mk ((natDigitsZ b n).map f)) (b : Int) = some (n : Int) := by
  have hmem : ∀ c ∈ (natDigitsZ b n).map f, ∃ d, d < b ∧ c = f (digitChar d) := by
    intro c hc
    obtain ⟨c0, hc0, rfl⟩ := List.mem_map.mp hc
    obtain ⟨d, hd, rfl⟩ := natDigitsZ_mem b hb n c0 hc0
    exact ⟨d, hd, rfl⟩
  have hws : ∀ c ∈ (natDigitsZ b n).map f, isPyWs c = false := by
    intro c hc
    obtain ⟨d, hd, rfl⟩ := hmem c hc
    exact (hg d hd).2.2.1
  obtain ⟨d0, t, hd0b, hcons, hd0t⟩ :
      ∃ d0 t, d0 < b ∧ (natDigitsZ b n).map f = f (digitChar d0) :: t ∧
        (d0 ≠ 0 ∨ t = []) := by
    by_cases hn : n = 0
    · subst hn
      refine ⟨0, [], by omega, ?_, Or.inr rfl⟩
      have h0 : natDigitsZ b 0 = [digitChar 0] := by
        unfold natDigitsZ
        rw [if_pos rfl]
        decide
      rw [h0]
      rfl
    · obtain ⟨d, t0, hd0, hdb, hc⟩ := natDigitsL_cons b hb n hn
      have hz : natDigitsZ b n = natDigitsL b n := by unfold natDigitsZ; rw [if_neg hn]
      exact ⟨d, t0.map f, hdb, by rw [hz, hc]; rfl, Or.inl hd0⟩
  obtain ⟨hdv, hne, hwsf, hplus, hminus, h0f⟩ := hg d0 hd0b
  have hdrop : dropPfx b (f (digitChar d0) :: t) = f (digitChar d0) :: t := by
    cases t with
    | nil => exact dropPfx_single b _
    | cons p rest =>
      apply dropPfx_eq_self
      intro hcond
      rcases hd0t with hd0ne | ht
      · exact h0f hd0ne hcond.1
      · cases ht
  simp only [pyIntParse]
  rw [stripWs_eq_self _ hws, hcons, splitSign_no_sign _ _ hplus hminus]
  have hbne : ¬((b : Int) = 0) := by omega
  have hbrange : 2 ≤ (b : Int) ∧ (b : Int) ≤ 36 := by omega
  have htn : ((b : Nat) : Int).toNat = b := by omega
  rw [if_neg hbne, if_pos hbrange, htn, hdrop, ← hcons]
  rw [parseDigitsCore_digits b hb f hg n]
  simp

/-! ### Rendered output of convert_integer -/

theorem mapUpper_of_le_ten (b : Nat) (hb : 2 ≤ b) (hb10 : b ≤ 10) (n : Nat) :
    mapUpper (natDigitsZ b n) = natDigitsZ b n := by
  unfold mapUpper
  have hpt : ∀ c ∈ natDigitsZ b n, Char.toUpper c = c := by
    intro c hc
    obtain ⟨d, hd, rfl⟩ := natDigitsZ_mem b hb n c hc
    have hdec : ∀ d, d < 10 → Char.toUpper (digitChar d) = digitChar d := by decide
    exact hdec d (by omega)
  calc (natDigitsZ b n).map Char.toUpper
      = (natDigitsZ b n).map id := List.map_congr_left hpt
    _ = natDigitsZ b n := List.map_id _

theorem slice2_pyBin_nonneg (n : Int) (hn : 0 ≤ n) :
    slice2 (pyBinL n) = natDigitsZ 2 n.natAbs := by
  unfold pyBinL slice2
  rw [if_neg (by omega : ¬n < 0)]
  rfl

theorem slice2_pyOct_nonneg (n : Int) (hn : 0 ≤ n) :
    slice2 (pyOctL n) = natDigitsZ 8 n.natAbs := by
  unfold pyOctL slice2
  rw [if_neg (by omega : ¬n < 0)]
  rfl

theorem slice2_pyHex_nonneg (n : Int) (hn : 0 ≤ n) :
    slice2 (pyHexL n) = natDigitsZ 16 n.natAbs := by
  unfold pyHexL slice2
  rw [if_neg (by omega : ¬n < 0)]
  rfl

theorem pyStrIntL_nonneg (n : Int) (hn : 0 ≤ n) :
    pyStrIntL n = natDigitsZ 10 n.natAbs := by
  unfold pyStrIntL
  rw [if_neg (by omega : ¬n < 0)]
  rfl

/-- With a successful parse and a recognized target base, `convert_integer`
answers 200 and, for a non-negative value, the canonical digit string. -/
theorem convert_integer_ok (s : String) (B D n : Int)
    (hD : D = 2 ∨ D = 8 ∨ D = 10 ∨ D = 16)
    (hp : pyIntParse s B = some n) (hn : 0 ≤ n) :
    convert_integer s B D = .ok ⟨s, B, D, canonicalDigits D.toNat n.toNat, n⟩ := by
  have hna : n.natAbs = n.toNat := by omega
  rcases hD with rfl | rfl | rfl | rfl
  · simp only [convert_integer, hp, Int.reduceEq, reduceIte]
    unfold canonicalDigits
    rw [show ((2 : Int)).toNat = 2 from rfl, mapUpper_of_le_ten 2 (by omega) (by omega),
      slice2_pyBin_nonneg n hn, hna]
  · simp only [convert_integer, hp, Int.reduceEq, reduceIte]
    unfold canonicalDigits
    rw [show ((8 : Int)).toNat = 8 from rfl, mapUpper_of_le_ten 8 (by omega) (by omega),
      slice2_pyOct_nonneg n hn, hna]
  · simp only [convert_integer, hp, Int.reduceEq, reduceIte]
    unfold canonicalDigits
    rw [show ((10 : Int)).toNat = 10 from rfl, mapUpper_of_le_ten 10 (by omega) (by omega),
      pyStrIntL_nonneg n hn, hna]
  · simp only [convert_integer, hp, Int.reduceEq, reduceIte]
    unfold canonicalDigits
    rw [show ((16 : Int)).toNat = 16 from rfl, slice2_pyHex_nonneg n hn, hna]

/-! ### Acceptance of arbitrary valid digit strings -/

theorem digitsLoop_isSome (b : Nat) :
    ∀ l acc, (∀ c ∈ l, ∃ d, digitVal c = some d ∧ d < b) →
      ∃ v, digitsLoop b acc l = some v := by
  intro l
  induction l with
  | nil => exact fun acc _ => ⟨acc, rfl⟩
  | cons c t ih =>
    intro acc h
    obtain ⟨d, hd, hdb⟩ := h c (List.mem_cons_self c t)
    have hne : c ≠ '_' := (not_special_of_digitVal hd).2.2
    rw [digitsLoop_cons_valid b acc c t d hne hd hdb]
    exact ih _ fun c2 hc2 => h c2 (List.mem_cons_of_mem c hc2)

theorem allValidDigits_spec {fb : Int} {l : List Char} (h : allValidDigits fb l = true) :
    ∀ c ∈ l, ∃ d, digitVal c = some d ∧ (d : Int) < fb := by
  intro c hc
  have hc2 := List.all_eq_true.mp h c hc
  revert hc2
  cases hv : digitVal c with
  | none => intro hc2; cases hc2
  | some d => exact fun hc2 => ⟨d, rfl, of_decide_eq_true hc2⟩

theorem pyIntParse_isSome_of_validDigits (l : List Char) (fb : Int)
    (hfb : 2 ≤ fb) (hfb36 : fb ≤ 36) (hl : l ≠ [])
    (hdig : allValidDigits fb l = true) :
    ∃ v, 0 ≤ v ∧ pyIntParse (String.mk l) fb = some v := by
  have hdig' := allValidDigits_spec hdig
  obtain ⟨c0, t, rfl⟩ : ∃ c0 t, l = c0 :: t := by
    cases l with
    | nil => exact absurd rfl hl
    | cons c0 t => exact ⟨c0, t, rfl⟩
  obtain ⟨d0, hd0, hd0b⟩ := hdig' c0 (List.mem_cons_self c0 t)
  obtain ⟨hplus, hminus, hund⟩ := not_special_of_digitVal hd0
  have hws : ∀ c ∈ c0 :: t, isPyWs c = false := by
    intro c hc
    obtain ⟨d, hd, -⟩ := hdig' c hc
    exact ws_false_of_digitVal hd
  have hdrop : dropPfx fb.toNat (c0 :: t) = c0 :: t := by
    cases t with
    | nil => exact dropPfx_single fb.toNat c0
    | cons p rest =>
      apply dropPfx_eq_self
      rintro ⟨hc0, hcase⟩
      obtain ⟨dp, hdp, hdpb⟩ := hdig' p (by simp)
      rcases hcase with ⟨hb16, hp | hp⟩ | ⟨hb8, hp | hp⟩ | ⟨hb2, hp | hp⟩ <;> subst hp
      · rw [show digitVal 'x' = some 33 from by decide] at hdp
        have : dp = 33 := (Option.some.inj hdp).symm
        omega
      · rw [show digitVal 'X' = some 33 from by decide] at hdp
        have : dp = 33 := (Option.some.inj hdp).symm
        omega
      · rw [show digitVal 'o' = some 24 from by decide] at hdp
        have : dp = 24 := (Option.some.inj hdp).symm
        omega
      · rw [show digitVal 'O' = some 24 from by decide] at hdp
        have : dp = 24 := (Option.some.inj hdp).symm
        omega
      · rw [show digitVal 'b' = some 11 from by decide] at hdp
        have : dp = 11 := (Option.some.inj hdp).symm
        omega
      · rw [show digitVal 'B' = some 11 from by decide] at hdp
        have : dp = 11 := (Option.some.inj hdp).symm
        omega
  obtain ⟨v, hv⟩ := digitsLoop_isSome fb.toNat (c0 :: t) 0 (by
    intro c hc
    obtain ⟨d, hd, hdb⟩ := hdig' c hc
    exact ⟨d, hd, by omega⟩)
  refine ⟨(v : Int), by omega, ?_⟩
  simp only [pyIntParse]
  rw [stripWs_eq_self _ hws, splitSign_no_sign _ _ hplus hminus]
  rw [if_neg (by omega : ¬(fb = 0)), if_pos (by omega : 2 ≤ fb ∧ fb ≤ 36), hdrop]
  rw [parseDigitsCore_cons fb.toNat c0 t hund, hv]
  simp

/-! ### Rejection characterization of convert_integer -/

theorem convert_integer_isOk_iff (s : String) (fb tb : Int) :
    (convert_integer s fb tb).isOk = false ↔
      pyIntParse s fb = none ∨ ¬(tb = 2 ∨ tb = 8 ∨ tb = 10 ∨ tb = 16) := by
  cases hp : pyIntParse s fb with
  | none => simp [convert_integer, hp, Api.isOk]
  | some dv =>
    simp only [convert_integer, hp]
    split_ifs with h1 h2 h3 h4 <;> simp [Api.isOk] <;> tauto

theorem pyIntParse_canonicalDigits (Bb : Int) (hB : Bb = 2 ∨ Bb = 8 ∨ Bb = 10 ∨ Bb = 16)
    (m : Nat) : pyIntParse (canonicalDigits Bb.toNat m) Bb = some (m : Int) := by
  have h2 : 2 ≤ Bb.toNat := by rcases hB with rfl | rfl | rfl | rfl <;> decide
  have h36 : Bb.toNat ≤ 36 := by rcases hB with rfl | rfl | rfl | rfl <;> decide
  have h16 : Bb.toNat ≤ 16 := by rcases hB with rfl | rfl | rfl | rfl <;> decide
  have hcast : ((Bb.toNat : Nat) : Int) = Bb := by
    rcases hB with rfl | rfl | rfl | rfl <;> decide
  have hthm := pyIntParse_canonical Bb.toNat h2 h36 Char.toUpper
    (goodDigitMap_mono h16 goodDigitMap_toUpper) m
  rw [hcast] at hthm
  exact hthm

/-! ### Claim theorems: integer endpoints -/

/-- C1 (code bug evidence): the spec's policy is that a negative input with
`to_base ∈ {2, 8, 16}` renders as a `-` prefix followed by the magnitude
digits, and `to_base = 10` renders the signed decimal string.  The code
computes `bin(x)[2:]` (resp. `oct`/`hex`), which for a negative `x` slices
`"-0b101"` into `"b101"`: at `number = "-5"`, `from_base = 10`, `to_base = 2`
the response carries `"b101"` where the spec requires `"-101"` (and
similarly `"o5"`, `"XFF"` for bases 8 and 16), while the base-10 rendering
`"-5"` is correct. -/
theorem C1_negative_rendering_bug :
    convert_integer "-5" 10 2 = .ok ⟨"-5", 10, 2, "b101", -5⟩ ∧
    convert_integer "-5" 10 8 = .ok ⟨"-5", 10, 8, "o5", -5⟩ ∧
    convert_integer "-255" 10 16 = .ok ⟨"-255", 10, 16, "XFF", -255⟩ ∧
    convert_integer "-5" 10 10 = .ok ⟨"-5", 10, 10, "-5", -5⟩ := by
  refine ⟨by decide, by decide, by decide, by decide⟩

/-- C2 (counterexample): `from_base = 3` lies outside {2, 8, 10, 16}, yet
`convert_integer` accepts the digit string `"12"` and answers `5` - the code
never validates `from_base`; it forwards it to Python's `int`, which accepts
any base in 2..36. -/
theorem C2_counterexample :
    convert_integer "12" 3 10 = .ok ⟨"12", 3, 10, "5", 5⟩ ∧
    ¬((3 : Int) = 2 ∨ (3 : Int) = 8 ∨ (3 : Int) = 10 ∨ (3 : Int) = 16) := by
  refine ⟨by decide, by decide⟩

/-- C2 (amended): `convert_integer` rejects with a client error iff
`int(number, from_base)` fails (invalid digit for the base, malformed
literal, or `from_base` outside the parser's accepted range {0} ∪ [2, 36])
or `to_base ∉ {2, 8, 10, 16}`; in particular any nonempty string of digits
all valid in a base `from_base ∈ [2, 36]` is accepted whenever `to_base` is
recognized, even for `from_base ∉ {2, 8, 10, 16}`. -/
theorem C2_amended_reject_characterization :
    (∀ (s : String) (fb tb : Int),
      (convert_integer s fb tb).isOk = false ↔
        pyIntParse s fb = none ∨ ¬(tb = 2 ∨ tb = 8 ∨ tb = 10 ∨ tb = 16)) ∧
    (∀ (l : List Char) (fb tb : Int), 2 ≤ fb → fb ≤ 36 → l ≠ [] →
      allValidDigits fb l = true → (tb = 2 ∨ tb = 8 ∨ tb = 10 ∨ tb = 16) →
      (convert_integer (String.mk l) fb tb).isOk = true) := by
  refine ⟨convert_integer_isOk_iff, ?_⟩
  intro l fb tb h2 h36 hne hvalid htb
  obtain ⟨v, hv0, hv⟩ := pyIntParse_isSome_of_validDigits l fb h2 h36 hne hvalid
  rcases htb with rfl | rfl | rfl | rfl <;>
    simp [convert_integer, hv, Api.isOk, Int.reduceEq, reduceIte]

/-- Witness for the amended C2 at a concrete input: base 3 with digits
`"12"` and target base 2 is accepted. -/
theorem C2_amended_witness :
    (convert_integer (String.mk ['1', '2']) 3 2).isOk = true :=
  C2_amended_reject_characterization.2 ['1', '2'] 3 2 (by decide) (by decide) (by decide)
    (by decide) (by decide)

/-- C3: for every digit string parsing to a non-negative value `n` in base
`B`, converting `B → D` and then `D → B` (both in {2, 8, 10, 16}) succeeds,
the intermediate and final outputs are the canonical digit strings of `n`
(no leading zeros, uppercase letters), and the final output parses back to
the original value - i.e. the round trip reproduces `s` up to canonical
formatting. -/
theorem C3_roundtrip (s : String) (B D n : Int)
    (hB : B = 2 ∨ B = 8 ∨ B = 10 ∨ B = 16) (hD : D = 2 ∨ D = 8 ∨ D = 10 ∨ D = 16)
    (hp : pyIntParse s B = some n) (hn : 0 ≤ n) :
    ∃ o1 o2 : ConvertIntResult,
      convert_integer s B D = .ok o1 ∧
      convert_integer o1.result D B = .ok o2 ∧
      o1.result = canonicalDigits D.toNat n.toNat ∧
      o2.result = canonicalDigits B.toNat n.toNat ∧
      pyIntParse o2.result B = some n := by
  have h1 := convert_integer_ok s B D n hD hp hn
  have hparse2 : pyIntParse (canonicalDigits D.toNat n.toNat) D = some n := by
    have := pyIntParse_canonicalDigits D hD n.toNat
    rwa [Int.toNat_of_nonneg hn] at this
  have h2 := convert_integer_ok (canonicalDigits D.toNat n.toNat) D B n hB hparse2 hn
  refine ⟨_, _, h1, h2, rfl, rfl, ?_⟩
  have := pyIntParse_canonicalDigits B hB n.toNat
  rwa [Int.toNat_of_nonneg hn] at this

/-- Witness for C3: `"FF"` in base 16 converts to `"11111111"` in base 2 and
back to `"FF"`. -/
theorem C3_roundtrip_witness :
    pyIntParse "FF" 16 = some 255 ∧
    ∃ o1 o2 : ConvertIntResult,
      convert_integer "FF" 16 2 = .ok o1 ∧
      convert_integer o1.result 2 16 = .ok o2 ∧
      o1.result = canonicalDigits 2 255 ∧
      o2.result = canonicalDigits 16 255 ∧
      pyIntParse o2.result 16 = some 255 :=
  ⟨by decide, C3_roundtrip "FF" 16 2 255 (by decide) (by decide) (by decide) (by decide)⟩

/-- C4: `binary_arithmetic(n, 0, "add")` answers exactly `n` (arbitrary
precision, no wrap) with the sign-magnitude binary rendering (binary digits
of `|n|` with a `-` prefix when `n < 0`), and the two subtraction examples
behave as specified. -/
theorem C4_binary_arithmetic_exact :
    (∀ n : Int, binary_arithmetic n 0 "add" =
      .ok ⟨String.mk ((if n < 0 then ['-'] else []) ++ natDigitsZ 2 n.natAbs), n⟩) ∧
    binary_arithmetic 5 3 "sub" = .ok ⟨"10", 2⟩ ∧
    binary_arithmetic 3 5 "sub" = .ok ⟨"-10", -2⟩ := by
  refine ⟨?_, by decide, by decide⟩
  intro n
  have hres : resBinL n = (if n < 0 then ['-'] else []) ++ natDigitsZ 2 n.natAbs := by
    unfold resBinL
    by_cases hn : 0 ≤ n
    · rw [if_pos hn, if_neg (by omega : ¬n < 0), slice2_pyBin_nonneg n hn]
      rfl
    · rw [if_neg hn, if_pos (by omega : n < 0),
        slice2_pyBin_nonneg (n.natAbs : Int) (Int.natCast_nonneg n.natAbs),
        Int.natAbs_ofNat]
      rfl
  unfold binary_arithmetic
  rw [if_pos rfl, add_zero, hres]

/-- C8: `binary_arithmetic` rejects with a client error exactly when the
operation is none of `"add"`, `"sub"`, `"mul"`; each recognized operation
always succeeds with the exact integer result. -/
theorem C8_operation_validation (a b : Int) (op : String) :
    ((binary_arithmetic a b op).isOk = false ↔
      ¬(op = "add" ∨ op = "sub" ∨ op = "mul")) ∧
    binary_arithmetic a b "add" = .ok ⟨String.mk (resBinL (a + b)), a + b⟩ ∧
    binary_arithmetic a b "sub" = .ok ⟨String.mk (resBinL (a - b)), a - b⟩ ∧
    binary_arithmetic a b "mul" = .ok ⟨String.mk (resBinL (a * b)), a * b⟩ := by
  refine ⟨?_, ?_, ?_, ?_⟩
  · constructor
    · intro hfalse hor
      rcases hor with rfl | rfl | rfl <;> simp [binary_arithmetic, Api.isOk] at hfalse
    · intro hnor
      have ha : op ≠ "add" := fun h => hnor (Or.inl h)
      have hs : op ≠ "sub" := fun h => hnor (Or.inr (Or.inl h))
      have hm : op ≠ "mul" := fun h => hnor (Or.inr (Or.inr h))
      simp [binary_arithmetic, ha, hs, hm, Api.isOk]
  · simp [binary_arithmetic]
  · simp [binary_arithmetic]
  · simp [binary_arithmetic]

/-- Witness for C8 at a concrete input: an unrecognized operation is the
only rejection. -/
theorem C8_operation_validation_witness :
    ((binary_arithmetic 1 2 "div").isOk = false ↔
      ¬(("div" : String) = "add" ∨ ("div" : String) = "sub" ∨ ("div" : String) = "mul")) ∧
    binary_arithmetic 1 2 "add" = .ok ⟨String.mk (resBinL 3), 3⟩ ∧
    binary_arithmetic 1 2 "sub" = .ok ⟨String.mk (resBinL (-1)), -1⟩ ∧
    binary_arithmetic 1 2 "mul" = .ok ⟨String.mk (resBinL 2), 2⟩ :=
  C8_operation_validation 1 2 "div"

/-- C10: `ascii_encoder` is total and order-preserving: one record per input
character, `dec` the code point, `hex` the canonical uppercase hex digits
(no padding), `bin` the binary digits zero-padded to a minimum width of 8 -
and for code points above 255 the binary field is the unpadded (≥ 9
character) digit string rather than being truncated or rejected. -/
theorem C10_ascii_encoder_total (s : String) :
    ascii_encoder s = s.data.map (fun c =>
      ⟨c, c.toNat, String.mk (mapUpper (natDigitsZ 16 c.toNat)),
        String.mk (zfill 8 (natDigitsZ 2 c.toNat))⟩) ∧
    (∀ r ∈ ascii_encoder s,
      (255 < r.dec → 9 ≤ r.bin.length ∧ r.bin.data = natDigitsZ 2 r.dec) ∧
      (r.dec ≤ 255 → r.bin.length = 8)) := by
  have hmapeq : ascii_encoder s = s.data.map (fun c =>
      ⟨c, c.toNat, String.mk (mapUpper (natDigitsZ 16 c.toNat)),
        String.mk (zfill 8 (natDigitsZ 2 c.toNat))⟩) := by
    unfold ascii_encoder
    apply List.map_congr_left
    intro c _
    rw [slice2_pyHex_nonneg (c.toNat : Int) (Int.natCast_nonneg c.toNat),
      slice2_pyBin_nonneg (c.toNat : Int) (Int.natCast_nonneg c.toNat),
      Int.natAbs_ofNat]
  refine ⟨hmapeq, ?_⟩
  intro r hr
  rw [hmapeq] at hr
  obtain ⟨c, -, rfl⟩ := List.mem_map.mp hr
  dsimp only
  have hlen : ∀ n : Nat, (String.mk (zfill 8 (natDigitsZ 2 n))).length =
      (8 - (natDigitsZ 2 n).length) + (natDigitsZ 2 n).length := by
    intro n
    show (zfill 8 (natDigitsZ 2 n)).length = _
    unfold zfill
    rw [List.length_append, List.length_replicate]
  constructor
  · intro hgt
    have hne : c.toNat ≠ 0 := by omega
    have hz : natDigitsZ 2 c.toNat = natDigitsL 2 c.toNat := by
      unfold natDigitsZ
      rw [if_neg hne]
    obtain ⟨-, hub⟩ := natDigitsL_length_bounds 2 (by omega) c.toNat hne
    have h9 : 9 ≤ (natDigitsL 2 c.toNat).length := by
      by_contra hcon
      have hle : (natDigitsL 2 c.toNat).length ≤ 8 := by omega
      have : (2 : Nat) ^ (natDigitsL 2 c.toNat).length ≤ 2 ^ 8 :=
        Nat.pow_le_pow_right (by omega) hle
      omega
    constructor
    · rw [hlen c.toNat, hz]
      omega
    · show zfill 8 (natDigitsZ 2 c.toNat) = natDigitsZ 2 c.toNat
      unfold zfill
      rw [hz]
      rw [show 8 - (natDigitsL 2 c.toNat).length = 0 by omega]
      rfl
  · intro hle
    rw [hlen c.toNat]
    have h8 : (natDigitsZ 2 c.toNat).length ≤ 8 := by
      by_cases hne : c.toNat = 0
      · unfold natDigitsZ
        rw [if_pos hne]
        decide
      · have hz : natDigitsZ 2 c.toNat = natDigitsL 2 c.toNat := by
          unfold natDigitsZ
          rw [if_neg hne]
        obtain ⟨hlb, -⟩ := natDigitsL_length_bounds 2 (by omega) c.toNat hne
        rw [hz]
        by_contra hcon
        have h9 : 9 ≤ (natDigitsL 2 c.toNat).length := by omega
        have : (2 : Nat) ^ 8 ≤ 2 ^ ((natDigitsL 2 c.toNat).length - 1) :=
          Nat.pow_le_pow_right (by omega) (by omega)
        omega
    omega

/-! ### Semantics of exact dyadic arithmetic -/

theorem two_zpow_pos (s : Int) : (0 : ℚ) < (2 : ℚ) ^ s := zpow_pos (by norm_num) s

theorem two_zpow_ne_zero (s : Int) : (2 : ℚ) ^ s ≠ 0 := ne_of_gt (two_zpow_pos s)

theorem zpow_toNat_cast (s : Int) (h : 0 ≤ s) : ((2 : ℚ) ^ s.toNat) = (2 : ℚ) ^ s := by
  rw [← zpow_natCast (2 : ℚ) s.toNat, Int.toNat_of_nonneg h]

theorem dyAdd_val (x y : Dy) : (dyAdd x y).val = x.val + y.val := by
  unfold dyAdd Dy.val
  by_cases h : x.e ≤ y.e
  · rw [if_pos h]
    dsimp only
    push_cast
    rw [add_mul, mul_assoc, zpow_toNat_cast (y.e - x.e) (by omega),
      ← zpow_add₀ (by norm_num : (2 : ℚ) ≠ 0), sub_add_cancel]
  · rw [if_neg h]
    dsimp only
    push_cast
    rw [add_mul, mul_assoc, zpow_toNat_cast (x.e - y.e) (by omega),
      ← zpow_add₀ (by norm_num : (2 : ℚ) ≠ 0), sub_add_cancel]

theorem dyNeg_val (x : Dy) : (dyNeg x).val = -x.val := by
  unfold dyNeg Dy.val
  push_cast
  ring

theorem dySub_val (x y : Dy) : (dySub x y).val = x.val - y.val := by
  unfold dySub
  rw [dyAdd_val, dyNeg_val]
  ring

theorem dyMul_val (x y : Dy) : (dyMul x y).val = x.val * y.val := by
  unfold dyMul Dy.val
  dsimp only
  push_cast
  rw [zpow_add₀ (by norm_num : (2 : ℚ) ≠ 0)]
  ring

theorem val_nonneg_iff (x : Dy) : 0 ≤ x.val ↔ 0 ≤ x.m := by
  unfold Dy.val
  rw [mul_nonneg_iff_of_pos_right (two_zpow_pos x.e)]
  exact_mod_cast Iff.rfl

theorem val_eq_zero_iff (x : Dy) : x.val = 0 ↔ x.m = 0 := by
  unfold Dy.val
  rw [mul_eq_zero]
  constructor
  · rintro (h | h)
    · exact_mod_cast h
    · exact absurd h (two_zpow_ne_zero x.e)
  · intro h
    exact Or.inl (by exact_mod_cast h)

/-! ### Semantics of round-to-nearest, ties to even -/

theorem rndHE_intCast (z : Int) : rndHE ((z : ℚ)) = z := by
  unfold rndHE
  rw [Int.floor_intCast]
  rw [if_pos (by norm_num)]

theorem rndHE_nonneg (y : ℚ) (h : 0 ≤ y) : 0 ≤ rndHE y := by
  unfold rndHE
  have h0 : 0 ≤ ⌊y⌋ := Int.floor_nonneg.mpr h
  split_ifs <;> omega

theorem rndHE_le (y : ℚ) (K : Int) (hy : y ≤ K) : rndHE y ≤ K := by
  have hf : ⌊y⌋ ≤ K := by
    have h := Int.floor_mono hy
    rwa [Int.floor_intCast] at h
  have hkey : (⌊y⌋ : ℚ) < y → ⌊y⌋ + 1 ≤ K := by
    intro hlt
    have : ⌊y⌋ < K := by
      by_contra hc
      push_neg at hc
      have he : ⌊y⌋ = K := le_antisymm hf hc
      rw [he] at hlt
      exact absurd hy (not_le.mpr hlt)
    omega
  unfold rndHE
  have hfl := Int.floor_le y
  split_ifs with h1 h2 h3
  · exact hf
  · exact hkey (by linarith)
  · exact hf
  · exact hkey (by linarith)

theorem rndHE_err (y : ℚ) : |(rndHE y : ℚ) - y| ≤ 1 / 2 := by
  have h1 := Int.floor_le y
  have h2 := Int.lt_floor_add_one y
  unfold rndHE
  split_ifs with ha hb hc <;> push_cast <;> rw [abs_le] <;> constructor <;> linarith

/-! ### The computable rounding agrees with rndHE -/

theorem floor_nat_div (n D : Nat) (hD : D ≠ 0) :
    ⌊(n : ℚ) / (D : ℚ)⌋ = ((n / D : Nat) : Int) := by
  have hD0 : (0 : ℚ) < (D : ℚ) := by exact_mod_cast Nat.pos_of_ne_zero hD
  rw [Int.floor_eq_iff]
  constructor
  · rw [le_div_iff₀ hD0]
    exact_mod_cast Nat.div_mul_le_self n D
  · rw [div_lt_iff₀ hD0]
    have h1 : n = D * (n / D) + n % D := (Nat.div_add_mod n D).symm
    have h2 : n % D < D := Nat.mod_lt n (Nat.pos_of_ne_zero hD)
    have h3 : n < (n / D + 1) * D := by
      have h4 : n / D * D = D * (n / D) := Nat.mul_comm _ _
      rw [Nat.add_mul, Nat.one_mul]
      omega
    push_cast
    exact_mod_cast h3

theorem roundHEDiv_eq_rndHE (n D : Nat) (hD : D ≠ 0) :
    ((roundHEDiv n D : Nat) : Int) = rndHE ((n : ℚ) / (D : ℚ)) := by
  have hD0 : (0 : ℚ) < (D : ℚ) := by exact_mod_cast Nat.pos_of_ne_zero hD
  have hfr : (n : ℚ) / (D : ℚ) - (((n / D : Nat) : Int) : ℚ) = ((n % D : Nat) : ℚ) / D := by
    have h1 : (n : ℚ) = (D : ℚ) * ((n / D : Nat) : ℚ) + ((n % D : Nat) : ℚ) := by
      exact_mod_cast congrArg (fun k : Nat => (k : ℚ)) (Nat.div_add_mod n D).symm
    have h2 : (((n / D : Nat) : Int) : ℚ) = ((n / D : Nat) : ℚ) := Int.cast_natCast _
    have h3 : ((n / D : Nat) : ℚ) * D = (D : ℚ) * ((n / D : Nat) : ℚ) := mul_comm _ _
    rw [h2, eq_div_iff (ne_of_gt hD0), sub_mul, div_mul_cancel₀ _ (ne_of_gt hD0)]
    linarith
  have hlt : ((n % D : Nat) : ℚ) / D < 1 / 2 ↔ 2 * (n % D) < D := by
    rw [div_lt_div_iff₀ hD0 (by norm_num : (0 : ℚ) < 2), one_mul]
    constructor
    · intro h
      have h2 : (n % D : Nat) * 2 < D := by exact_mod_cast h
      omega
    · intro h
      have h2 : (n % D : Nat) * 2 < D := by omega
      exact_mod_cast h2
  have hgt : 1 / 2 < ((n % D : Nat) : ℚ) / D ↔ D < 2 * (n % D) := by
    rw [div_lt_div_iff₀ (by norm_num : (0 : ℚ) < 2) hD0, one_mul]
    constructor
    · intro h
      have h2 : D < (n % D : Nat) * 2 := by exact_mod_cast h
      omega
    · intro h
      have h2 : D < (n % D : Nat) * 2 := by omega
      exact_mod_cast h2
  have hpar : (((n / D : Nat) : Int) % 2 = 0) ↔ ((n / D) % 2 = 0) := by omega
  unfold roundHEDiv rndHE
  rw [floor_nat_div n D hD, hfr]
  by_cases hA : 2 * (n % D) < D
  · rw [if_pos hA, if_pos (hlt.mpr hA)]
  · rw [if_neg hA, if_neg (fun h => hA (hlt.mp h))]
    by_cases hB : D < 2 * (n % D)
    · rw [if_pos hB, if_pos (hgt.mpr hB)]
      push_cast
      ring
    · rw [if_neg hB, if_neg (fun h => hB (hgt.mp h))]
      by_cases hP : (n / D) % 2 = 0
      · rw [if_pos hP, if_pos (hpar.mpr hP)]
      · rw [if_neg hP, if_neg (fun h => hP (hpar.mp h))]
        push_cast
        ring

theorem roundHEQuot_eq (m : Int) (d : Nat) (hm : 0 ≤ m) :
    roundHEQuot m d = rndHE ((m : ℚ) / (2 : ℚ) ^ (d : Nat)) := by
  unfold roundHEQuot
  rw [if_neg (by omega : ¬m < 0)]
  have h2 : ((2 : Nat) ^ d) ≠ 0 := by positivity
  rw [roundHEDiv_eq_rndHE m.natAbs (2 ^ d) h2]
  congr 1
  have hcast : ((m.natAbs : Nat) : ℚ) = (m : ℚ) := by
    rw [Int.cast_natAbs]
    exact congrArg (fun z : Int => (z : ℚ)) (abs_of_nonneg hm)
  rw [hcast]
  congr 1
  push_cast
  ring

theorem div_zpow_shift (a : ℚ) (e s : Int) :
    a * (2 : ℚ) ^ e / (2 : ℚ) ^ s = a * (2 : ℚ) ^ (e - s) := by
  rw [mul_div_assoc, ← zpow_sub₀ (by norm_num : (2 : ℚ) ≠ 0)]

theorem roundAt_eq (x : Dy) (s : Int) (hm : 0 ≤ x.m) :
    roundAt x s = rndHE (x.val / (2 : ℚ) ^ s) := by
  unfold roundAt
  by_cases h : s ≤ x.e
  · rw [if_pos h]
    have hv : x.val / (2 : ℚ) ^ s = ((x.m * 2 ^ (x.e - s).toNat : Int) : ℚ) := by
      unfold Dy.val
      rw [div_zpow_shift]
      push_cast
      rw [zpow_toNat_cast (x.e - s) (by omega)]
    rw [hv, rndHE_intCast]
  · rw [if_neg h]
    rw [roundHEQuot_eq x.m _ hm]
    congr 1
    unfold Dy.val
    rw [div_zpow_shift]
    rw [zpow_toNat_cast (s - x.e) (by omega)]
    rw [div_eq_mul_inv, ← zpow_neg, show -(s - x.e) = x.e - s from by omega]

/-! ### Floor-log2 and the binary64 rounding grid -/

theorem nlog2F_fuel : ∀ f f' n, n ≤ f → n ≤ f' → nlog2F f n = nlog2F f' n := by
  intro f
  induction f with
  | zero =>
    intro f' n hf _
    have hn : n = 0 := by omega
    subst hn
    cases f' <;> simp [nlog2F]
  | succ f ih =>
    intro f' n hf hf'
    by_cases hn : 2 ≤ n
    · cases f' with
      | zero => omega
      | succ f'' =>
        have hd : n / 2 < n := Nat.div_lt_self (by omega) (by omega)
        simp only [nlog2F, if_pos hn]
        rw [ih f'' (n / 2) (by omega) (by omega)]
    · cases f' with
      | zero =>
        have hn0 : n = 0 := by omega
        subst hn0
        simp [nlog2F]
      | succ f'' => simp only [nlog2F, if_neg hn]

theorem nlog2_rec (n : Nat) (h : 2 ≤ n) : nlog2 n = nlog2 (n / 2) + 1 := by
  unfold nlog2
  obtain ⟨m, rfl⟩ : ∃ m, n = m + 1 := ⟨n - 1, by omega⟩
  show nlog2F (m + 1) (m + 1) = _
  simp only [nlog2F, if_pos h]
  congr 1
  have hd : (m + 1) / 2 < m + 1 := Nat.div_lt_self (by omega) (by omega)
  exact nlog2F_fuel m ((m + 1) / 2) ((m + 1) / 2) (by omega) le_rfl

theorem nlog2_bounds : ∀ n, 1 ≤ n → 2 ^ nlog2 n ≤ n ∧ n < 2 ^ (nlog2 n + 1) := by
  intro n
  induction n using Nat.strong_induction_on with
  | _ n ih =>
    intro h1
    by_cases h2 : 2 ≤ n
    · have hd : n / 2 < n := Nat.div_lt_self (by omega) (by omega)
      obtain ⟨hl, hh⟩ := ih (n / 2) hd (by omega)
      rw [nlog2_rec n h2]
      constructor
      · rw [pow_succ]
        have h3 : 2 ^ nlog2 (n / 2) * 2 ≤ n / 2 * 2 := Nat.mul_le_mul_right 2 hl
        omega
      · rw [pow_succ, pow_succ]
        have h3 : (n / 2 + 1) * 2 ≤ 2 ^ (nlog2 (n / 2) + 1) * 2 := Nat.mul_le_mul_right 2 hh
        rw [pow_succ] at h3
        omega
    · have hn1 : n = 1 := by omega
      subst hn1
      decide

/-- Cast helper: a natural power of two as a rational `zpow`. -/
theorem two_pow_cast (k : Nat) : ((2 ^ k : Nat) : ℚ) = (2 : ℚ) ^ (k : Int) := by
  push_cast
  rw [zpow_natCast]

theorem two_zpow_mul (a b : Int) : (2 : ℚ) ^ a * (2 : ℚ) ^ b = (2 : ℚ) ^ (a + b) :=
  (zpow_add₀ (by norm_num : (2 : ℚ) ≠ 0) a b).symm

theorem two_pow53_cast : ((2 ^ 53 : Nat) : ℚ) = (2 : ℚ) ^ (53 : ℤ) := by
  rw [two_pow_cast]
  norm_num

theorem natAbs_cast_q (m : Int) (hm : 0 ≤ m) : ((m.natAbs : Nat) : ℚ) = (m : ℚ) := by
  rw [Int.cast_natAbs]
  exact congrArg (fun z : Int => (z : ℚ)) (abs_of_nonneg hm)

/-- Value bounds of a dyadic with positive mantissa in its binade. -/
theorem dy_val_bounds (x : Dy) (hm : 0 < x.m) :
    (2 : ℚ) ^ ((nlog2 x.m.natAbs : Int) + x.e) ≤ x.val ∧
      x.val < (2 : ℚ) ^ ((nlog2 x.m.natAbs : Int) + x.e + 1) := by
  obtain ⟨hl, hh⟩ := nlog2_bounds x.m.natAbs (by omega)
  have hcast1 : (2 : ℚ) ^ ((nlog2 x.m.natAbs : Nat) : Int) ≤ (x.m : ℚ) := by
    rw [← natAbs_cast_q x.m (by omega), ← two_pow_cast]
    exact_mod_cast hl
  have hcast2 : (x.m : ℚ) < (2 : ℚ) ^ (((nlog2 x.m.natAbs + 1 : Nat) : Nat) : Int) := by
    rw [← natAbs_cast_q x.m (by omega), ← two_pow_cast]
    exact_mod_cast hh
  constructor
  · rw [← two_zpow_mul]
    unfold Dy.val
    exact mul_le_mul_of_nonneg_right hcast1 (le_of_lt (two_zpow_pos x.e))
  · have h2 : x.val < (2 : ℚ) ^ (((nlog2 x.m.natAbs + 1 : Nat) : Nat) : Int) * (2 : ℚ) ^ x.e := by
      unfold Dy.val
      exact mul_lt_mul_of_pos_right hcast2 (two_zpow_pos x.e)
    rw [two_zpow_mul] at h2
    have hexp : (((nlog2 x.m.natAbs + 1 : Nat) : Nat) : Int) + x.e =
        (nlog2 x.m.natAbs : Int) + x.e + 1 := by push_cast; ring
    rwa [hexp] at h2

theorem flDy_zero_m (x : Dy) (h : x.m = 0) : flDy x = ⟨0, 0⟩ := by
  unfold flDy
  rw [if_pos h]

/-- Characterization of `flDy` on a positive mantissa: there is a grid
exponent `s` and a binade floor `L` with the usual properties. -/
theorem flDy_pos_spec (x : Dy) (hm : 0 < x.m) :
    ∃ s L : Int, flDy x = ⟨roundAt x s, s⟩ ∧ s = max (L - 52) (-1074) ∧
      (2 : ℚ) ^ L ≤ x.val ∧ x.val < (2 : ℚ) ^ (L + 1) := by
  refine ⟨max ((nlog2 x.m.natAbs : Int) + x.e - 52) (-1074),
    (nlog2 x.m.natAbs : Int) + x.e, ?_, rfl, (dy_val_bounds x hm).1, (dy_val_bounds x hm).2⟩
  unfold flDy
  rw [if_neg (by omega : ¬x.m = 0)]

theorem val_mk_q (m : Int) (e : Int) : Dy.val ⟨m, e⟩ = (m : ℚ) * (2 : ℚ) ^ e := rfl

theorem flDy_nonneg (x : Dy) (hm : 0 ≤ x.m) : 0 ≤ (flDy x).m ∧ 0 ≤ (flDy x).val := by
  have hcore : 0 ≤ (flDy x).m := by
    by_cases h0 : x.m = 0
    · rw [flDy_zero_m x h0]
    · obtain ⟨s, L, hfl, -, -, -⟩ := flDy_pos_spec x (by omega)
      rw [hfl]
      show 0 ≤ roundAt x s
      rw [roundAt_eq x s hm]
      exact rndHE_nonneg _
        (div_nonneg ((val_nonneg_iff x).mpr hm) (le_of_lt (two_zpow_pos s)))
  exact ⟨hcore, (val_nonneg_iff (flDy x)).mpr hcore⟩

theorem flDy_m_le (x : Dy) (hm : 0 ≤ x.m) : (flDy x).m ≤ 2 ^ 53 := by
  by_cases h0 : x.m = 0
  · rw [flDy_zero_m x h0]
    norm_num
  · obtain ⟨s, L, hfl, hsdef, -, hhi⟩ := flDy_pos_spec x (by omega)
    rw [hfl]
    show roundAt x s ≤ 2 ^ 53
    rw [roundAt_eq x s hm]
    apply rndHE_le
    rw [div_le_iff₀ (two_zpow_pos s)]
    have hsL : L - 52 ≤ s := hsdef ▸ le_max_left _ _
    have h1 : x.val < (2 : ℚ) ^ (s + 53) :=
      lt_of_lt_of_le hhi (zpow_le_zpow_right₀ (by norm_num) (by omega))
    have h2 : ((2 ^ 53 : Int) : ℚ) * (2 : ℚ) ^ s = (2 : ℚ) ^ (s + 53) := by
      have hc : ((2 ^ 53 : Int) : ℚ) = (2 : ℚ) ^ (53 : ℤ) := by
        rw [← two_pow53_cast]
        norm_cast
      rw [hc, two_zpow_mul, add_comm]
    rw [h2]
    exact le_of_lt h1

theorem flDy_e_ge (x : Dy) : -1074 ≤ (flDy x).e := by
  by_cases h0 : x.m = 0
  · rw [flDy_zero_m x h0]
    norm_num
  · unfold flDy
    rw [if_neg h0]
    exact le_max_right _ _

theorem flDy_e_le (x : Dy) (hm : 0 ≤ x.m) (hv : x.val < (2 : ℚ) ^ (53 : ℤ)) :
    (flDy x).e ≤ 0 := by
  by_cases h0 : x.m = 0
  · rw [flDy_zero_m x h0]
  · obtain ⟨s, L, hfl, hsdef, hlo, -⟩ := flDy_pos_spec x (by omega)
    rw [hfl]
    show s ≤ 0
    have hL : L < 53 := by
      by_contra hc
      push_neg at hc
      have : (2 : ℚ) ^ (53 : ℤ) ≤ (2 : ℚ) ^ L := zpow_le_zpow_right₀ (by norm_num) hc
      linarith
    omega

theorem flDy_err (x : Dy) (hm : 0 ≤ x.m) (h0 : x.m ≠ 0) :
    |(flDy x).val - x.val| ≤ (2 : ℚ) ^ ((flDy x).e - 1) := by
  obtain ⟨s, L, hfl, -, -, -⟩ := flDy_pos_spec x (by omega)
  rw [hfl]
  show |((roundAt x s : Int) : ℚ) * (2 : ℚ) ^ s - x.val| ≤ (2 : ℚ) ^ (s - 1)
  rw [roundAt_eq x s hm]
  have herr := rndHE_err (x.val / (2 : ℚ) ^ s)
  have hsplit : ((rndHE (x.val / (2 : ℚ) ^ s) : Int) : ℚ) * (2 : ℚ) ^ s - x.val =
      (((rndHE (x.val / (2 : ℚ) ^ s) : Int) : ℚ) - x.val / (2 : ℚ) ^ s) * (2 : ℚ) ^ s := by
    field_simp
  rw [hsplit, abs_mul, abs_of_pos (two_zpow_pos s)]
  have hbound := mul_le_mul_of_nonneg_right herr (le_of_lt (two_zpow_pos s))
  have heq : (1 / 2 : ℚ) * (2 : ℚ) ^ s = (2 : ℚ) ^ (s - 1) := by
    rw [zpow_sub₀ (by norm_num : (2 : ℚ) ≠ 0)]
    ring
  rw [heq] at hbound
  exact hbound

/-- Exactness: when the value of `x` is representable (a natural mantissa
below `2 ^ 53` at an exponent at least -1074), binary64 rounding is the
identity. -/
theorem flDy_exact (x : Dy) (hm : 0 ≤ x.m) (k : Nat) (t : Int)
    (hval : x.val = (k : ℚ) * (2 : ℚ) ^ t) (hk : k < 2 ^ 53) (ht : -1074 ≤ t) :
    (flDy x).val = x.val := by
  by_cases h0 : x.m = 0
  · rw [flDy_zero_m x h0, (val_eq_zero_iff x).mpr h0]
    rw [val_mk_q]
    norm_num
  · obtain ⟨s, L, hfl, hsdef, hlo, hhi⟩ := flDy_pos_spec x (by omega)
    have hts : s ≤ t := by
      rcases le_or_lt (L - 52) (-1074) with hc | hc
      · rw [hsdef, max_eq_right hc]
        exact ht
      · rw [hsdef, max_eq_left (le_of_lt hc)]
        by_contra hcon
        push_neg at hcon
        have h1 : x.val < (2 : ℚ) ^ (53 + t) := by
          rw [hval]
          have hkq : (k : ℚ) < (2 : ℚ) ^ (53 : ℤ) := by
            rw [← two_pow53_cast]
            exact_mod_cast hk
          calc (k : ℚ) * (2 : ℚ) ^ t
              < (2 : ℚ) ^ (53 : ℤ) * (2 : ℚ) ^ t :=
                mul_lt_mul_of_pos_right hkq (two_zpow_pos t)
            _ = (2 : ℚ) ^ (53 + t) := two_zpow_mul 53 t
        have h3 : (2 : ℚ) ^ (53 + t) ≤ (2 : ℚ) ^ L :=
          zpow_le_zpow_right₀ (by norm_num) (by omega)
        linarith
    have hint : x.val / (2 : ℚ) ^ s = (((k : Int) * 2 ^ (t - s).toNat : Int) : ℚ) := by
      rw [hval, div_zpow_shift]
      push_cast
      rw [zpow_toNat_cast (t - s) (by omega)]
    rw [hfl]
    show ((roundAt x s : Int) : ℚ) * (2 : ℚ) ^ s = x.val
    rw [roundAt_eq x s hm, hint, rndHE_intCast]
    push_cast
    rw [zpow_toNat_cast (t - s) (by omega), mul_assoc, two_zpow_mul, sub_add_cancel]
    exact hval.symm

/-! ### Consequences of the loop invariant -/

theorem doubleIn01_nonneg {q : ℚ} (h : DoubleIn01 q) : 0 ≤ q := by
  obtain ⟨k, s, -, -, -, hval, -⟩ := h
  rw [hval]
  exact mul_nonneg (by positivity) (le_of_lt (two_zpow_pos s))

theorem doubleIn01_le {q : ℚ} (h : DoubleIn01 q) : q ≤ 1 - (2 : ℚ) ^ (-53 : ℤ) := by
  obtain ⟨k, s, hs1, hs0, hk, hval, hlt⟩ := h
  by_cases hcase : -53 ≤ s
  · have hks : (k : ℚ) < (2 : ℚ) ^ (-s) := by
      have h1 : (k : ℚ) * (2 : ℚ) ^ s < 1 := hval ▸ hlt
      calc (k : ℚ) = (k : ℚ) * (2 : ℚ) ^ s * (2 : ℚ) ^ (-s) := by
            rw [mul_assoc, two_zpow_mul]
            norm_num
        _ < 1 * (2 : ℚ) ^ (-s) := mul_lt_mul_of_pos_right h1 (two_zpow_pos (-s))
        _ = (2 : ℚ) ^ (-s) := one_mul _
    have hpow : ((2 ^ (-s).toNat : Nat) : ℚ) = (2 : ℚ) ^ (-s) := by
      rw [two_pow_cast, Int.toNat_of_nonneg (by omega : (0 : ℤ) ≤ -s)]
    have hk2 : k < 2 ^ (-s).toNat := by
      have h2 : ((k : Nat) : ℚ) < ((2 ^ (-s).toNat : Nat) : ℚ) := by
        rw [hpow]
        exact hks
      exact_mod_cast h2
    have hq : q ≤ 1 - (2 : ℚ) ^ s := by
      rw [hval]
      have hk3 : (k : ℚ) ≤ ((2 ^ (-s).toNat - 1 : Nat) : ℚ) := by
        exact_mod_cast (by omega : k ≤ 2 ^ (-s).toNat - 1)
      have hsub : ((2 ^ (-s).toNat - 1 : Nat) : ℚ) = (2 : ℚ) ^ (-s) - 1 := by
        rw [Nat.cast_sub Nat.one_le_two_pow, Nat.cast_one, hpow]
      calc (k : ℚ) * (2 : ℚ) ^ s ≤ ((2 : ℚ) ^ (-s) - 1) * (2 : ℚ) ^ s := by
            rw [← hsub]
            exact mul_le_mul_of_nonneg_right hk3 (le_of_lt (two_zpow_pos s))
        _ = (2 : ℚ) ^ (-s) * (2 : ℚ) ^ s - (2 : ℚ) ^ s := by ring
        _ = 1 - (2 : ℚ) ^ s := by
            rw [two_zpow_mul]
            norm_num
    have hmono : (2 : ℚ) ^ (-53 : ℤ) ≤ (2 : ℚ) ^ s := zpow_le_zpow_right₀ (by norm_num) hcase
    generalize (2 : ℚ) ^ (-53 : ℤ) = X at hmono ⊢
    generalize (2 : ℚ) ^ s = Y at hq hmono
    linarith
  · have h1 : q < (2 : ℚ) ^ (53 + s) := by
      rw [hval]
      have hkq : (k : ℚ) < (2 : ℚ) ^ (53 : ℤ) := by
        rw [← two_pow53_cast]
        exact_mod_cast hk
      calc (k : ℚ) * (2 : ℚ) ^ s < (2 : ℚ) ^ (53 : ℤ) * (2 : ℚ) ^ s :=
            mul_lt_mul_of_pos_right hkq (two_zpow_pos s)
        _ = (2 : ℚ) ^ (53 + s) := two_zpow_mul 53 s
    have h2 : (2 : ℚ) ^ (53 + s) ≤ (2 : ℚ) ^ (-1 : ℤ) :=
      zpow_le_zpow_right₀ (by norm_num) (by omega)
    have h3 : (2 : ℚ) ^ (-53 : ℤ) ≤ (2 : ℚ) ^ (-1 : ℤ) :=
      zpow_le_zpow_right₀ (by norm_num) (by omega)
    have h4 : (2 : ℚ) ^ (-1 : ℤ) = 1 / 2 := by norm_num
    have h5 : q < 1 / 2 := by
      calc q < (2 : ℚ) ^ (53 + s) := h1
        _ ≤ (2 : ℚ) ^ (-1 : ℤ) := h2
        _ = 1 / 2 := h4
    have h6 : (2 : ℚ) ^ (-53 : ℤ) ≤ 1 / 2 := h4 ▸ h3
    generalize (2 : ℚ) ^ (-53 : ℤ) = X at h6 ⊢
    linarith

/-! ### Truncation, int-to-float conversion, digit characters -/

theorem dyTrunc_eq_floor (x : Dy) (hm : 0 ≤ x.m) : dyTrunc x = ⌊x.val⌋ := by
  unfold dyTrunc
  by_cases h : 0 ≤ x.e
  · rw [if_pos h]
    have hvq : x.val = ((x.m * 2 ^ x.e.toNat : Int) : ℚ) := by
      unfold Dy.val
      push_cast
      rw [zpow_toNat_cast x.e h]
    rw [hvq, Int.floor_intCast]
  · rw [if_neg h]
    dsimp only
    rw [if_neg (by omega : ¬x.m < 0)]
    have hvq : x.val = ((x.m.natAbs : Nat) : ℚ) / ((2 ^ (-x.e).toNat : Nat) : ℚ) := by
      rw [natAbs_cast_q x.m hm, two_pow_cast, Int.toNat_of_nonneg (by omega : (0 : ℤ) ≤ -x.e),
        div_eq_mul_inv, ← zpow_neg, neg_neg]
      rfl
    rw [hvq, floor_nat_div _ _ (by positivity)]

theorem pyFloat_val (n : Int) (h0 : 0 ≤ n) (h53 : n ≤ 2 ^ 53) : (pyFloat n).val = (n : ℚ) := by
  unfold pyFloat
  have hbase : Dy.val ⟨n, 0⟩ = (n : ℚ) := by
    rw [val_mk_q]
    norm_num
  by_cases hlt : n < 2 ^ 53
  · have hval : Dy.val ⟨n, 0⟩ = ((n.toNat : Nat) : ℚ) * (2 : ℚ) ^ (0 : ℤ) := by
      rw [hbase]
      norm_num
      exact_mod_cast (Int.toNat_of_nonneg h0).symm
    rw [flDy_exact ⟨n, 0⟩ (by simpa using h0) n.toNat 0 hval (by omega) (by norm_num)]
    exact hbase
  · have hn : n = 2 ^ 53 := by omega
    have hval : Dy.val ⟨n, 0⟩ = ((2 ^ 52 : Nat) : ℚ) * (2 : ℚ) ^ (1 : ℤ) := by
      rw [hbase, hn]
      push_cast
      norm_num
    rw [flDy_exact ⟨n, 0⟩ (by simpa using h0) (2 ^ 52) 1 hval (by norm_num) (by norm_num)]
    exact hbase

theorem digitChars_valid :
    ∀ d : Int, 0 ≤ d → d < 16 → ∃ ch, digitChars d = [ch] ∧ digitVal ch = some d.toNat := by
  intro d h0 h16
  interval_cases d <;> exact ⟨_, rfl, by decide⟩

/-! ### C9: the fractional-digit loop invariant -/

/-- C9: one iteration of `convert_fraction`'s digit loop, under exact
binary64 float semantics.  If the accumulator is a representable double in
`[0, 1)` and `2 ≤ to_base ≤ 2 ^ 53` (so that `to_base` converts to float
exactly), then the emitted digit satisfies `0 ≤ digit < to_base`, the new
accumulator is again a representable double in `[0, 1)`, and for
`to_base ≤ 16` the emitted character is a single valid digit character of
value `digit`. -/
theorem C9_fracStep_invariant (tb : Int) (cur : Dy)
    (htb2 : 2 ≤ tb) (htb53 : tb ≤ 2 ^ 53) (hinv : DoubleIn01 cur.val) :
    0 ≤ (fracStep tb cur).1 ∧ (fracStep tb cur).1 < tb ∧
      0 ≤ (fracStep tb cur).2.val ∧ (fracStep tb cur).2.val < 1 ∧
      DoubleIn01 (fracStep tb cur).2.val ∧
      (tb ≤ 16 → ∃ ch, digitChars (fracStep tb cur).1 = [ch] ∧
        digitVal ch = some (fracStep tb cur).1.toNat) := by
  have hcur0 : 0 ≤ cur.val := doubleIn01_nonneg hinv
  have hcur1 : cur.val ≤ 1 - (2 : ℚ) ^ (-53 : ℤ) := doubleIn01_le hinv
  have hcurm : 0 ≤ cur.m := (val_nonneg_iff cur).mp hcur0
  have htbq : (pyFloat tb).val = (tb : ℚ) := pyFloat_val tb (by omega) htb53
  have htbq0 : (0 : ℚ) < (tb : ℚ) := by exact_mod_cast (by omega : (0 : ℤ) < tb)
  have htbm : 0 ≤ (pyFloat tb).m := by
    rw [← val_nonneg_iff, htbq]
    exact le_of_lt htbq0
  set x := dyMul cur (pyFloat tb) with hx
  have hxval : x.val = cur.val * (tb : ℚ) := by rw [hx, dyMul_val, htbq]
  have hxm : 0 ≤ x.m := by
    rw [hx]
    unfold dyMul
    exact mul_nonneg hcurm htbm
  have hx0 : 0 ≤ x.val := (val_nonneg_iff x).mpr hxm
  have hxle : x.val ≤ (tb : ℚ) - (tb : ℚ) * (2 : ℚ) ^ (-53 : ℤ) := by
    rw [hxval]
    calc cur.val * (tb : ℚ) ≤ (1 - (2 : ℚ) ^ (-53 : ℤ)) * (tb : ℚ) :=
          mul_le_mul_of_nonneg_right hcur1 (le_of_lt htbq0)
      _ = (tb : ℚ) - (tb : ℚ) * (2 : ℚ) ^ (-53 : ℤ) := by ring
  have hxlt : x.val < (tb : ℚ) := by
    have hpos : 0 < (tb : ℚ) * (2 : ℚ) ^ (-53 : ℤ) := mul_pos htbq0 (two_zpow_pos _)
    generalize (tb : ℚ) * (2 : ℚ) ^ (-53 : ℤ) = W at hxle hpos
    linarith
  have hx53 : x.val < (2 : ℚ) ^ (53 : ℤ) := by
    have h1 : (tb : ℚ) ≤ ((2 ^ 53 : Int) : ℚ) := by exact_mod_cast htb53
    have h2 : ((2 ^ 53 : Int) : ℚ) = (2 : ℚ) ^ (53 : ℤ) := by
      rw [← two_pow53_cast]
      norm_cast
    rw [h2] at h1
    linarith
  have hvm : 0 ≤ (flDy x).m := (flDy_nonneg x hxm).1
  have hv0 : 0 ≤ (flDy x).val := (flDy_nonneg x hxm).2
  have hse0 : (flDy x).e ≤ 0 := flDy_e_le x hxm hx53
  -- the rounded product stays strictly below the base
  have hvlt : (flDy x).val < (tb : ℚ) := by
    by_cases hxz : x.m = 0
    · rw [flDy_zero_m x hxz, val_mk_q]
      norm_num
      omega
    · obtain ⟨s, L, hfl, hsdef, hlo, hhi⟩ := flDy_pos_spec x (by omega)
      by_contra hcon
      push_neg at hcon
      have herr := flDy_err x hxm hxz
      rw [hfl] at herr hcon
      have habs := abs_le.mp herr
      have h1 : (tb : ℚ) - x.val ≤ (2 : ℚ) ^ ((Dy.mk (roundAt x s) s).e - 1) := by
        have := habs.2
        linarith
      have hee : (Dy.mk (roundAt x s) s).e = s := rfl
      rw [hee] at h1
      have h2 : (tb : ℚ) * (2 : ℚ) ^ (-53 : ℤ) ≤ (2 : ℚ) ^ (s - 1) := by
        generalize hW : (tb : ℚ) * (2 : ℚ) ^ (-53 : ℤ) = W at hxle ⊢
        linarith
      have h3 : (tb : ℚ) ≤ (2 : ℚ) ^ (s + 52) := by
        calc (tb : ℚ) = (tb : ℚ) * ((2 : ℚ) ^ (-53 : ℤ) * (2 : ℚ) ^ (53 : ℤ)) := by
              rw [two_zpow_mul]
              norm_num
          _ = ((tb : ℚ) * (2 : ℚ) ^ (-53 : ℤ)) * (2 : ℚ) ^ (53 : ℤ) := by ring
          _ ≤ (2 : ℚ) ^ (s - 1) * (2 : ℚ) ^ (53 : ℤ) :=
              mul_le_mul_of_nonneg_right h2 (le_of_lt (two_zpow_pos _))
          _ = (2 : ℚ) ^ (s + 52) := by
              rw [two_zpow_mul]
              congr 1
              omega
      rcases le_or_lt (-1074) (L - 52) with hc | hc
      · have hseq : s = L - 52 := by rw [hsdef, max_eq_left hc]
        have h4 : (tb : ℚ) ≤ (2 : ℚ) ^ L :=
          le_trans h3 (zpow_le_zpow_right₀ (by norm_num) (by omega))
        linarith
      · have hseq : s = -1074 := by rw [hsdef, max_eq_right (le_of_lt hc)]
        rw [hseq] at h3
        have h4 : (2 : ℚ) ^ ((-1074 : ℤ) + 52) ≤ (2 : ℚ) ^ (0 : ℤ) :=
          zpow_le_zpow_right₀ (by norm_num) (by omega)
        have h5 : (2 : ℚ) ^ (0 : ℤ) = 1 := zpow_zero 2
        have h6 : (2 : ℚ) ≤ (tb : ℚ) := by exact_mod_cast htb2
        linarith
  -- rewrite the goal through the step structure
  have hstep : fracStep tb cur =
      (dyTrunc (flDy x), pySub (flDy x) (pyFloat (dyTrunc (flDy x)))) := by
    rw [hx]
    rfl
  rw [hstep]
  dsimp only
  have hdfloor : dyTrunc (flDy x) = ⌊(flDy x).val⌋ := dyTrunc_eq_floor (flDy x) hvm
  have hd0 : 0 ≤ dyTrunc (flDy x) := by
    rw [hdfloor]
    exact Int.floor_nonneg.mpr hv0
  have hdlt : dyTrunc (flDy x) < tb := by
    rw [hdfloor, Int.floor_lt]
    exact hvlt
  have hdval : (pyFloat (dyTrunc (flDy x))).val = ((dyTrunc (flDy x) : Int) : ℚ) :=
    pyFloat_val _ hd0 (by omega)
  have hzval : (dySub (flDy x) (pyFloat (dyTrunc (flDy x)))).val =
      (flDy x).val - ((dyTrunc (flDy x) : Int) : ℚ) := by
    rw [dySub_val, hdval]
  have hy0 : 0 ≤ (dySub (flDy x) (pyFloat (dyTrunc (flDy x)))).val := by
    rw [hzval, hdfloor]
    have := Int.floor_le (flDy x).val
    linarith
  have hy1 : (dySub (flDy x) (pyFloat (dyTrunc (flDy x)))).val < 1 := by
    rw [hzval, hdfloor]
    have := Int.lt_floor_add_one (flDy x).val
    linarith
  have hzm : 0 ≤ (dySub (flDy x) (pyFloat (dyTrunc (flDy x)))).m :=
    (val_nonneg_iff _).mp hy0
  -- representability of the new accumulator value
  obtain ⟨k2, t2, ht2a, ht2b, hk2, hrep⟩ :
      ∃ (k2 : Nat) (t2 : Int), -1074 ≤ t2 ∧ t2 ≤ 0 ∧ k2 < 2 ^ 53 ∧
        (dySub (flDy x) (pyFloat (dyTrunc (flDy x)))).val = (k2 : ℚ) * (2 : ℚ) ^ t2 := by
    by_cases hxz : x.m = 0
    · refine ⟨0, 0, by norm_num, le_refl 0, by norm_num, ?_⟩
      have hz0 : dyTrunc (flDy x) = 0 := by
        rw [hdfloor, flDy_zero_m x hxz, val_mk_q]
        norm_num
      rw [hzval, hz0, flDy_zero_m x hxz, val_mk_q]
      norm_num
    · obtain ⟨s, L, hfl, hsdef, hlo, hhi⟩ := flDy_pos_spec x (by omega)
      have hs1074 : -1074 ≤ s := hsdef ▸ le_max_right _ _
      have hs0 : s ≤ 0 := by
        have h := hse0
        rw [hfl] at h
        exact h
      have hM53 : (flDy x).m ≤ 2 ^ 53 := flDy_m_le x hxm
      have hvv : (flDy x).val = ((flDy x).m : ℚ) * (2 : ℚ) ^ s := by
        rw [hfl, val_mk_q]
      rcases le_or_lt (-53) s with hc | hc
      · -- the digit aligns exactly on the grid of the rounded product
        set K : Int := (flDy x).m - dyTrunc (flDy x) * 2 ^ (-s).toNat with hK
        have hKval : (dySub (flDy x) (pyFloat (dyTrunc (flDy x)))).val =
            (K : ℚ) * (2 : ℚ) ^ s := by
          have hKq : (((flDy x).m - dyTrunc (flDy x) * 2 ^ (-s).toNat : Int) : ℚ) =
              ((flDy x).m : ℚ) - (dyTrunc (flDy x) : ℚ) * (2 : ℚ) ^ (-s) := by
            push_cast
            rw [zpow_toNat_cast (-s) (by omega)]
          rw [hzval, hK, hKq, sub_mul, mul_assoc, two_zpow_mul,
            show (-s + s : ℤ) = 0 from by omega, zpow_zero, mul_one, hvv]
        have hK0 : 0 ≤ K := by
          have h1 : 0 ≤ (K : ℚ) * (2 : ℚ) ^ s := hKval ▸ hy0
          have h2 := (mul_nonneg_iff_of_pos_right (two_zpow_pos s)).mp h1
          exact_mod_cast h2
        have hKlt : (K : ℚ) < (2 : ℚ) ^ (-s) := by
          have h1 : (K : ℚ) * (2 : ℚ) ^ s < 1 := hKval ▸ hy1
          calc (K : ℚ) = (K : ℚ) * (2 : ℚ) ^ s * (2 : ℚ) ^ (-s) := by
                rw [mul_assoc, two_zpow_mul]
                norm_num
            _ < 1 * (2 : ℚ) ^ (-s) := mul_lt_mul_of_pos_right h1 (two_zpow_pos (-s))
            _ = (2 : ℚ) ^ (-s) := one_mul _
        have hK53 : K.toNat < 2 ^ 53 := by
          have hpow : ((2 ^ (-s).toNat : Nat) : ℚ) = (2 : ℚ) ^ (-s) := by
            rw [two_pow_cast, Int.toNat_of_nonneg (by omega : (0 : ℤ) ≤ -s)]
          have h2 : (K.toNat : ℚ) < ((2 ^ (-s).toNat : Nat) : ℚ) := by
            rw [hpow]
            have hKK : ((K.toNat : Nat) : ℚ) = (K : ℚ) := by
              exact_mod_cast congrArg (fun z : Int => (z : ℚ)) (Int.toNat_of_nonneg hK0)
            rw [hKK]
            exact hKlt
          have h3 : K.toNat < 2 ^ (-s).toNat := by exact_mod_cast h2
          have h4 : 2 ^ (-s).toNat ≤ 2 ^ 53 :=
            Nat.pow_le_pow_right (by omega) (by omega)
          omega
        refine ⟨K.toNat, s, hs1074, hs0, hK53, ?_⟩
        rw [hKval]
        congr 1
        exact_mod_cast congrArg (fun z : Int => (z : ℚ)) (Int.toNat_of_nonneg hK0).symm
      · -- the product is below 1, so the digit is 0
        have hvsmall : (flDy x).val < 1 := by
          rw [hvv]
          have hM : ((flDy x).m : ℚ) ≤ (2 : ℚ) ^ (53 : ℤ) := by
            rw [← two_pow53_cast]
            exact_mod_cast hM53
          have h1 : ((flDy x).m : ℚ) * (2 : ℚ) ^ s ≤ (2 : ℚ) ^ (53 : ℤ) * (2 : ℚ) ^ s :=
            mul_le_mul_of_nonneg_right hM (le_of_lt (two_zpow_pos s))
          have h2 : (2 : ℚ) ^ (53 : ℤ) * (2 : ℚ) ^ s = (2 : ℚ) ^ (53 + s) := two_zpow_mul _ _
          have h3 : (2 : ℚ) ^ (53 + s) < (2 : ℚ) ^ (0 : ℤ) :=
            zpow_lt_zpow_right₀ (by norm_num) (by omega)
          have h4 : (2 : ℚ) ^ (0 : ℤ) = 1 := zpow_zero 2
          linarith
        have hdz : dyTrunc (flDy x) = 0 := by
          rw [hdfloor]
          have h1 : (0 : ℤ) ≤ ⌊(flDy x).val⌋ := Int.floor_nonneg.mpr hv0
          have h2 : ⌊(flDy x).val⌋ < 1 := by
            rw [Int.floor_lt]
            exact_mod_cast hvsmall
          omega
        have hzv2 : (dySub (flDy x) (pyFloat (dyTrunc (flDy x)))).val = (flDy x).val := by
          rw [hzval, hdz]
          norm_num
        rcases lt_or_eq_of_le hM53 with hMlt | hMeq
        · refine ⟨(flDy x).m.toNat, s, hs1074, hs0, by omega, ?_⟩
          rw [hzv2, hvv]
          congr 1
          exact_mod_cast congrArg (fun z : Int => (z : ℚ)) (Int.toNat_of_nonneg hvm).symm
        · refine ⟨2 ^ 52, s + 1, by omega, by omega, by norm_num, ?_⟩
          rw [hzv2, hvv, hMeq]
          have hl : ((2 ^ 53 : Int) : ℚ) = (2 : ℚ) ^ (53 : ℤ) := by
            rw [← two_pow53_cast]
            norm_cast
          have hr : ((2 ^ 52 : Nat) : ℚ) = (2 : ℚ) ^ (52 : ℤ) := by
            rw [two_pow_cast]
            norm_num
          rw [hl, hr, two_zpow_mul, two_zpow_mul,
            show (53 : ℤ) + s = 52 + (s + 1) from by omega]
  have hexact : (flDy (dySub (flDy x) (pyFloat (dyTrunc (flDy x))))).val =
      (dySub (flDy x) (pyFloat (dyTrunc (flDy x)))).val :=
    flDy_exact _ hzm k2 t2 hrep hk2 ht2a
  have hsubval : (pySub (flDy x) (pyFloat (dyTrunc (flDy x)))).val =
      (dySub (flDy x) (pyFloat (dyTrunc (flDy x)))).val := by
    unfold pySub
    exact hexact
  refine ⟨hd0, hdlt, ?_, ?_, ?_, ?_⟩
  · rw [hsubval]
    exact hy0
  · rw [hsubval]
    exact hy1
  · exact ⟨k2, t2, ht2a, ht2b, hk2, by rw [hsubval]; exact hrep, by rw [hsubval]; exact hy1⟩
  · intro htb16
    exact digitChars_valid _ hd0 (by omega)

/-- Witness for C9 at a concrete state: base 16 with accumulator 0.0. -/
theorem C9_fracStep_invariant_witness :
    0 ≤ (fracStep 16 ⟨0, 0⟩).1 ∧ (fracStep 16 ⟨0, 0⟩).1 < 16 ∧
      0 ≤ (fracStep 16 ⟨0, 0⟩).2.val ∧ (fracStep 16 ⟨0, 0⟩).2.val < 1 ∧
      DoubleIn01 (fracStep 16 ⟨0, 0⟩).2.val ∧
      ((16 : ℤ) ≤ 16 → ∃ ch, digitChars (fracStep 16 ⟨0, 0⟩).1 = [ch] ∧
        digitVal ch = some (fracStep 16 ⟨0, 0⟩).1.toNat) :=
  C9_fracStep_invariant 16 ⟨0, 0⟩ (by decide) (by decide)
    ⟨0, 0, by norm_num, le_refl 0, by norm_num, by norm_num [Dy.val], by norm_num [Dy.val]⟩

/-! ### Claim theorems: floating-point endpoints -/

/-- C5: encoding the double `1.0` with the IEEE-754 encoder yields the hex
string `"3F800000"` (8 uppercase hexadecimal characters) and the bit groups
`"0 01111111 00000000000000000000000"` (sign, 8 exponent bits, 23 mantissa
bits, space separated, zero padded to fixed widths). -/
theorem C5_ieee754_one :
    float_to_ieee754 ⟨1, 0⟩ = ⟨"0 01111111 00000000000000000000000", "3F800000"⟩ ∧
    (float_to_ieee754 ⟨1, 0⟩).hex.length = 8 :=
  ⟨by decide, by decide⟩

/-- C6: converting `"10.5"` from base 10 to base 2 with precision 4 yields
`"1010.1"` - the fractional loop emits the digit 1 and stops immediately on
the exact-zero remainder, so even a huge precision yields the same string. -/
theorem C6_fraction_conversion :
    convert_fraction "10.5" 10 2 4 = .ok "1010.1" ∧
    convert_fraction "10.5" 10 2 1000000 = .ok "1010.1" :=
  ⟨by decide, by decide⟩

/-- C7 counterexample: a lexically valid request with `precision = 0` and
`to_base = 2` on which `convert_fraction` does not answer with the
trailing-dot string.  The base-16 integer part `"1"` followed by 256 zeros
parses to `16 ^ 256 = 2 ^ 1024` (the defaulted fractional part `"0"` parses
too), and `full_decimal = dec_int + dec_frac` then raises an uncaught
`OverflowError` in `float(dec_int)` - an HTTP 500 crash, not a result. -/
theorem C7_counterexample :
    pyIntParse (String.mk (cfParts hugeHexNumber).1) 16 = some ((16 ^ 256 : Nat) : Int) ∧
    (fracVals 16 (cfParts hugeHexNumber).2).isSome = true ∧
    convert_fraction hugeHexNumber 16 2 0 = .crash :=
  ⟨by decide, by decide, by decide⟩

/-- C7 (amended): with `precision = 0` and a recognized non-decimal target
base, a request whose integer and fractional parts both parse returns the
converted integer part followed by a bare trailing dot - provided the parsed
integer value survives CPython's int → float conversion at
`full_decimal = dec_int + dec_frac`; when that conversion overflows (the
rounded magnitude reaches `2 ^ 1024`, about `1.8e308`) the endpoint instead
crashes with an uncaught `OverflowError`. -/
theorem C7_precision_zero (number : String) (fb tb decInt : Int)
    (hfb : fb = 2 ∨ fb = 8 ∨ fb = 10 ∨ fb = 16)
    (htb : tb = 2 ∨ tb = 8 ∨ tb = 16)
    (hp : pyIntParse (String.mk (cfParts number).1) fb = some decInt)
    (hfv : (fracVals fb (cfParts number).2).isSome = true) :
    (pyFloatOverflows decInt = false →
      convert_fraction number fb tb 0 = .ok (String.mk (cfRenderInt tb decInt ++ ['.']))) ∧
    (pyFloatOverflows decInt = true → convert_fraction number fb tb 0 = .crash) := by
  have hfb0 : ¬(fb = 0) := by rcases hfb with rfl | rfl | rfl | rfl <;> decide
  have htb10 : ¬(tb = 10) := by rcases htb with rfl | rfl | rfl <;> decide
  rcases hv : fracVals fb (cfParts number).2 with _ | vals
  · rw [hv] at hfv
    simp [Option.isSome] at hfv
  · constructor
    · intro hov
      simp only [convert_fraction, hp, hv]
      rw [if_neg (fun hc => hfb0 hc.1), hov]
      rw [if_neg (fun hc => Bool.false_ne_true hc), if_neg htb10,
        if_neg (fun hc => absurd hc.1 (by decide))]
      rfl
    · intro hov
      simp only [convert_fraction, hp, hv]
      rw [if_neg (fun hc => hfb0 hc.1), hov, if_pos rfl]

/-- Witness for C7: `"5.25"` from base 10 to base 2 with precision 0 parses
to the integer part 5 - far below the overflow threshold - and gives the
bare `"101."`. -/
theorem C7_precision_zero_witness :
    pyIntParse (String.mk (cfParts "5.25").1) 10 = some 5 ∧
    (fracVals 10 (cfParts "5.25").2).isSome = true ∧
    ((pyFloatOverflows 5 = false →
        convert_fraction "5.25" 10 2 0 = .ok (String.mk (cfRenderInt 2 5 ++ ['.']))) ∧
      (pyFloatOverflows 5 = true → convert_fraction "5.25" 10 2 0 = .crash)) :=
  ⟨by decide, by decide,
    C7_precision_zero "5.25" 10 2 5 (by decide) (by decide) (by decide) (by decide)⟩
